import Mathlib

/-!
Verification of the warp-sync wallet core (zcash-warp) against its
natural-language specification.  The Rust sources under `src/` are embedded
shallowly: machine integers become `Nat`/`Int` with the wrap-around of the
release-mode arithmetic made explicit (`% 256`, `% 2^64`) where the source can
overflow, fallible decoding becomes `Option`, and the stateful synchronizers
become pure state-passing functions.

The file is organised as definitions first (the embedding of the source),
then the theorems that settle the claims.
-/

set_option maxRecDepth 16000
set_option maxHeartbeats 2000000

namespace ZcashWarp

/-- Commitment-tree node hashes, nullifiers and txids are opaque 32-byte
values in the source; they are modelled as naturals. -/
abbrev Hash := Nat

/-! ### FeeManager (src/src/pay/fee.rs)

The Rust state is two `[u8; 3]` arrays indexed by pool
(0 = transparent, 1 = Sapling, 2 = Orchard). -/

/-- A `[u8; 3]` array indexed by pool.  Entries are `u8` values; the
increments below wrap modulo 256 as release-mode `u8` arithmetic does. -/
structure Counts3 where
  c0 : Nat
  c1 : Nat
  c2 : Nat
deriving DecidableEq, Repr, Inhabited

def Counts3.get (c : Counts3) : Nat → Nat
  | 0 => c.c0
  | 1 => c.c1
  | 2 => c.c2
  | _ => 0

/-- `c[pool] += 1` on a `u8` cell (wraps at 256 in release mode). -/
def Counts3.incr (c : Counts3) : Nat → Counts3
  | 0 => { c with c0 := (c.c0 + 1) % 256 }
  | 1 => { c with c1 := (c.c1 + 1) % 256 }
  | 2 => { c with c2 := (c.c2 + 1) % 256 }
  | _ => c

/-- FeeManager state (src/src/pay/fee.rs lines 1-5). -/
structure FeeManager where
  num_inputs : Counts3
  num_outputs : Counts3
deriving DecidableEq, Repr, Inhabited

/-- The total `t + s + o` computed by `FeeManager::fee`
(src/src/pay/fee.rs lines 20-38), before the final `u8` addition wraps. -/
def FeeManager.feeSum (m : FeeManager) : Nat :=
  let t := Nat.max (m.num_inputs.get 0) (m.num_outputs.get 0)
  let s :=
    let o :=
      if m.num_inputs.get 1 > 0 then Nat.max (m.num_outputs.get 1) 2
      else m.num_outputs.get 1
    Nat.max (m.num_inputs.get 1) o
  let o :=
    if m.num_inputs.get 2 > 0 ∨ m.num_outputs.get 2 > 0 then
      Nat.max (Nat.max (m.num_inputs.get 2) (m.num_outputs.get 2)) 2
    else 0
  t + s + o

/-- `FeeManager::fee` (src/src/pay/fee.rs lines 20-40).  `let f = t + s + o;`
adds `u8` values, so the sum wraps modulo 256 before the widening
multiplication `f as u64 * 5_000`. -/
def FeeManager.fee (m : FeeManager) : Nat :=
  (m.feeSum % 256) * 5000

/-- State after `self.num_inputs[pool as usize] += 1`. -/
def FeeManager.withInput (m : FeeManager) (pool : Nat) : FeeManager :=
  { m with num_inputs := m.num_inputs.incr pool }

/-- State after `self.num_outputs[pool as usize] += 1`. -/
def FeeManager.withOutput (m : FeeManager) (pool : Nat) : FeeManager :=
  { m with num_outputs := m.num_outputs.incr pool }

/-- `FeeManager::add_input` (src/src/pay/fee.rs lines 8-12): increments the
input counter and returns `self.fee() - fee`, a `u64` subtraction that wraps
modulo 2^64 in release mode. -/
def FeeManager.add_input (m : FeeManager) (pool : Nat) : FeeManager × Nat :=
  ((m.withInput pool), ((m.withInput pool).fee + 2 ^ 64 - m.fee) % 2 ^ 64)

/-- `FeeManager::add_output` (src/src/pay/fee.rs lines 14-18). -/
def FeeManager.add_output (m : FeeManager) (pool : Nat) : FeeManager × Nat :=
  ((m.withOutput pool), ((m.withOutput pool).fee + 2 ^ 64 - m.fee) % 2 ^ 64)

/-- The `t` term exactly as the claim states it. -/
def specT (m : FeeManager) : Nat :=
  Nat.max (m.num_inputs.get 0) (m.num_outputs.get 0)

/-- The `s` term exactly as the claim states it: when there are Sapling
inputs, `max(num_inputs[S], max(num_outputs[S], 2))`, otherwise
`max(num_inputs[S], num_outputs[S])`. -/
def specS (m : FeeManager) : Nat :=
  if m.num_inputs.get 1 > 0 then
    Nat.max (m.num_inputs.get 1) (Nat.max (m.num_outputs.get 1) 2)
  else Nat.max (m.num_inputs.get 1) (m.num_outputs.get 1)

/-- The `o` term exactly as the claim states it. -/
def specO (m : FeeManager) : Nat :=
  if m.num_inputs.get 2 > 0 ∨ m.num_outputs.get 2 > 0 then
    Nat.max (Nat.max (m.num_inputs.get 2) (m.num_outputs.get 2)) 2
  else 0

/-- The fee the claim describes: `(t + s + o) * 5000` over unbounded naturals. -/
def specFee (m : FeeManager) : Nat :=
  (specT m + specS m + specO m) * 5000

/-- The valid `u8` fee state with 255 transparent inputs and one Orchard
input, on which the `u8` sum `t + s + o = 257` wraps. -/
def feeOverflowState : FeeManager :=
  { num_inputs := ⟨255, 0, 1⟩, num_outputs := ⟨0, 0, 0⟩ }

/-- The fee state with 253 transparent inputs and one Orchard input:
`t + s + o = 255`, so one more transparent input wraps the sum to 0. -/
def feeWrapState : FeeManager :=
  { num_inputs := ⟨253, 0, 1⟩, num_outputs := ⟨0, 0, 0⟩ }

/-- The claim's concrete scenario: one Orchard input, no outputs. -/
def feeOrchardState : FeeManager :=
  { num_inputs := ⟨0, 0, 1⟩, num_outputs := ⟨0, 0, 0⟩ }

/-! ### Payment expansion (src/src/pay.rs) -/

/-- The shape of a decoded `zcash_client_backend` `RecipientAddress` as
consumed by `ExtendedPayment::to_extended` (src/src/pay.rs lines 45-63):
transparent, Sapling shielded, or unified with optional sapling/orchard
receivers. -/
inductive RecipientAddress where
  | transparent
  | shielded
  | unified (hasSapling : Bool) (hasOrchard : Bool)
deriving DecidableEq, Repr

/-- A payment item after address decoding: `RecipientAddress::decode` yields
`None` exactly when the address string does not decode. -/
structure PaymentItemM where
  address : Option RecipientAddress
  amount : Nat
deriving DecidableEq, Repr

/-- The fields of `ExtendedPayment` that `to_extended` computes. -/
structure ExtendedPaymentM where
  amount : Nat
  remaining : Nat
  pool : Nat
deriving DecidableEq, Repr

/-- The `pool` value `to_extended` assigns (src/src/pay.rs lines 48-58):
`Shielded => 1`, `Transparent => 0`, and for unified addresses
`(1 if sapling receiver) + (2 if orchard receiver)`. -/
def addressPool : RecipientAddress → Nat
  | .shielded => 1
  | .transparent => 0
  | .unified s o => (if s then 1 else 0) + (if o then 2 else 0)

/-- `ExtendedPayment::to_extended` (src/src/pay.rs lines 45-63); `none`
models the `Err("Invalid Address")` return. -/
def toExtended (p : PaymentItemM) : Option ExtendedPaymentM :=
  match p.address with
  | none => none
  | some ua => some { amount := p.amount, remaining := p.amount, pool := addressPool ua }

/-- The destination-pool bitset the claim describes, under the `PoolMask`
convention bit 0 = T, bit 1 = S, bit 2 = O: transparent yields the set with T,
shielded yields the set with S, unified yields the union of its receivers. -/
def claimedPoolMask : RecipientAddress → Nat
  | .transparent => 1
  | .shielded => 2
  | .unified s o => (if s then 2 else 0) + (if o then 4 else 0)

/-- The bitset the code actually produces, read under the convention
bit 0 = S, bit 1 = O: the set of shielded receiver pools of the address
(empty for a purely transparent address). -/
def shieldedReceiverMask : RecipientAddress → Nat
  | .transparent => 0
  | .shielded => 1
  | .unified s o => (if s then 1 else 0) + (if o then 2 else 0)

/-! ### Transparent synchronizer (src/src/warp/sync/transparent.rs) -/

/-- A transparent outpoint (txid, vout). -/
structure OutPoint where
  txid : Hash
  vout : Nat
deriving DecidableEq, Repr

/-- A UTXO row as constructed by the source (src/src/warp/sync/transparent.rs
lines 92-101); note the struct has no spent flag. -/
structure UTXO where
  id : Nat
  account : Nat
  height : Nat
  txid : Hash
  vout : Nat
  address : Nat
  value : Nat
  is_new : Bool
deriving DecidableEq, Repr

/-- `TxValueUpdate<T>`: a signed balance delta; `id_spent` carries the spent
identifier (an outpoint for the transparent pool, a nullifier for Sapling). -/
structure TxValueUpdate (α : Type) where
  id_tx : Nat
  account : Nat
  txid : Hash
  value : Int
  height : Nat
  id_spent : Option α
deriving DecidableEq, Repr

/-- `ReceivedTx` rows as built by `process_txs` (fields the source sets). -/
structure ReceivedTxM where
  id : Nat
  account : Nat
  height : Nat
  txid : Hash
  timestamp : Nat
  ivtx : Nat
  value : Int
deriving DecidableEq, Repr

/-- An output of a transparent transaction kept for the wallet. -/
structure TxOutM where
  vout : Nat
  value : Nat
deriving DecidableEq, Repr

/-- A raw transparent transaction filtered to wallet addresses. -/
structure TransparentTxM where
  account : Nat
  height : Nat
  timestamp : Nat
  txid : Hash
  vins : List OutPoint
  vouts : List TxOutM
deriving DecidableEq, Repr

/-- `TransparentSync` state (src/src/warp/sync/transparent.rs lines 15-21).
Addresses are (account, transparent address) pairs; the address encoding is
opaque and modelled as a natural. -/
structure TransparentSync where
  addresses : List (Nat × Nat)
  utxos : List UTXO
  txs : List (ReceivedTxM × OutPoint × Nat)
  tx_updates : List (TxValueUpdate OutPoint)
deriving DecidableEq, Repr

/-- The negative-value update pushed for a matched input
(src/src/warp/sync/transparent.rs lines 53-63). -/
def spendUpdate (tx : TransparentTxM) (vin : OutPoint) (u : UTXO) : TxValueUpdate OutPoint :=
  { id_tx := 0
    account := tx.account
    txid := tx.txid
    value := -(u.value : Int)
    height := tx.height
    id_spent := some ⟨vin.txid, vin.vout⟩ }

/-- One step of the input loop of `process_txs`
(src/src/warp/sync/transparent.rs lines 47-65): if the input's previous
outpoint is found among the held UTXOs (first match), append a negative
`TxValueUpdate`; the UTXO list itself is not touched. -/
def vinStep (tx : TransparentTxM) (S : TransparentSync) (vin : OutPoint) : TransparentSync :=
  match S.utxos.find? (fun u => u.txid == vin.txid && u.vout == vin.vout) with
  | some u => { S with tx_updates := S.tx_updates ++ [spendUpdate tx vin u] }
  | none => S

/-- Input phase of `process_txs` for one transaction. -/
def processVins (S : TransparentSync) (tx : TransparentTxM) : TransparentSync :=
  tx.vins.foldl (vinStep tx) S

/-- One step of the output loop of `process_txs`
(src/src/warp/sync/transparent.rs lines 67-102): append a received-tx record
and a fresh UTXO row.  The encoded address of the account is looked up in
`addresses` (`unwrap` in the source; 0 when absent). -/
def voutStep (tx : TransparentTxM) (S : TransparentSync) (txout : TxOutM) : TransparentSync :=
  let rtx : ReceivedTxM :=
    { id := 0, account := tx.account, height := tx.height, txid := tx.txid
      timestamp := tx.timestamp, ivtx := 0, value := 0 }
  let addr := ((S.addresses.find? (fun p => p.1 == tx.account)).map Prod.snd).getD 0
  { S with
      txs := S.txs ++ [(rtx, ⟨tx.txid, txout.vout⟩, txout.value)]
      utxos := S.utxos ++ [{ is_new := true, id := 0, account := tx.account
                             height := tx.height, txid := tx.txid, vout := txout.vout
                             address := addr, value := txout.value }] }

/-- Output phase of `process_txs` for one transaction. -/
def processVouts (S : TransparentSync) (tx : TransparentTxM) : TransparentSync :=
  tx.vouts.foldl (voutStep tx) S

/-- `TransparentSync::process_txs` (src/src/warp/sync/transparent.rs
lines 45-111): for every transaction, first the inputs, then the outputs. -/
def processTxs (S : TransparentSync) (txs : List TransparentTxM) : TransparentSync :=
  txs.foldl (fun S tx => processVouts (processVins S tx) tx) S

/-- Concrete transparent-sync state holding one UTXO, for the C8 theorems. -/
def tSync0 : TransparentSync :=
  { addresses := [(1, 5)]
    utxos := [{ id := 7, account := 1, height := 10, txid := 42, vout := 0
                address := 5, value := 1000, is_new := false }]
    txs := []
    tx_updates := [] }

/-- A transaction spending the outpoint (42, 0) held by `tSync0`. -/
def tSpendTx : TransparentTxM :=
  { account := 1, height := 20, timestamp := 0, txid := 43
    vins := [⟨42, 0⟩], vouts := [] }

/-! ### Warp synchronizer (src/src/warp/sync/sapling.rs)

`Synchronizer::add` is embedded as a pure state-transition function.  The
trial-decryption primitive, the nullifier derivation and the pool hasher
live outside the embedded sources (they are cryptographic externals), so
`add` is parameterized by them. -/

/-- Modelled from the spec: the per-pool Merkle depth constant
(`MERKLE_DEPTH` of the warp module, not among the embedded sources), fixed
at the Sapling depth 32; the synchronizer loop runs over depths `0..32`. -/
def MERKLE_DEPTH : Nat := 32

/-- One side of a bridge boundary (`either::Side`): left or right sibling. -/
inductive Side where
  | left (h : Hash)
  | right (h : Hash)
deriving DecidableEq, Repr

/-- One level of a server bridge: optional head (left-boundary) and tail
(right-boundary) siblings. -/
structure BridgeLevel where
  head : Option Side
  tail : Option Side
deriving DecidableEq, Repr

/-- A server bridge: a contiguous range of `len` hidden leaves with
boundary siblings per level. -/
structure Bridge where
  len : Nat
  levels : List BridgeLevel
deriving DecidableEq, Repr

/-- A compact transaction: hash (txid), output commitments (`cmu`), spend
nullifiers, and an optional sapling bridge. -/
structure CompactTx where
  hash : Hash
  outputs : List Hash
  spends : List Hash
  sapling_bridge : Option Bridge
deriving DecidableEq, Repr

/-- A compact block: height and transactions. -/
structure CompactBlock where
  height : Nat
  vtx : List CompactTx
deriving DecidableEq, Repr

/-- Per-note Merkle witness: leaf position, leaf value, one optional ommer
per depth. -/
structure Witness where
  position : Nat
  value : Hash
  ommers : List (Option Hash)
deriving DecidableEq, Repr, Inhabited

/-- A fresh witness as carried by a just-decrypted note (every field is
overwritten by the depth loop before use). -/
def Witness.init : Witness :=
  { position := 0, value := 0, ommers := List.replicate MERKLE_DEPTH none }

/-- The data a successful trial decryption yields for one output before
position assignment: the receiving account, the note value, and the note
material (recipient, rseed) the nullifier is derived from, abstracted as
`seed`. -/
structure RawNote where
  account : Nat
  value : Nat
  seed : Nat
deriving DecidableEq, Repr, Inhabited

/-- A received note as the sapling synchronizer keeps it. -/
structure ReceivedNote where
  account : Nat
  height : Nat
  ivtx : Nat
  vout : Nat
  value : Nat
  seed : Nat
  position : Nat
  nf : Hash
  txid : Hash
  witness : Witness
  spent : Option Nat
deriving DecidableEq, Repr, Inhabited

/-- Synchronizer state (src/src/warp/sync/sapling.rs lines 27-37).  The
network, account table and hasher fields are capabilities, abstracted as
the `dec`, `nfOf` and `comb` parameters of `add`. -/
structure Synchronizer where
  start : Nat
  notes : List ReceivedNote
  spends : List (TxValueUpdate Hash)
  position : Nat
  tree_state : List (Option Hash)
deriving DecidableEq, Repr

/-- Modelled from the spec (§4.2 Decrypt; `try_sapling_decrypt` is not
among the embedded sources): trial decryption of one compact output, a pure
function of block height, transaction index, output index and commitment,
yielding at most one received-note record. -/
abbrev DecryptFn := Nat → Nat → Nat → Hash → Option RawNote

/-- Modelled from the spec (§4.3 step 1): derivation of the nullifier from
the decrypted note material and the assigned position under the account's
viewing key. -/
abbrev NullifierFn := RawNote → Nat → Hash

/-- Modelled from the spec (§4.1 Hasher): depth-parameterized two-to-one
compression; `none` operands stand for empty subtrees. -/
abbrev CombineFn := Nat → Option Hash → Option Hash → Hash

/-- Modelled from the spec (§4.1): `parallel_combine_opt(depth, nodes,
pairs)` returns `pairs` elements with `out[i] = combine(depth, nodes[2i],
nodes[2i+1])`; both-`None` pairs yield `None`. -/
def parallelCombineOpt (comb : CombineFn) (depth : Nat)
    (nodes : List (Option Hash)) (pairs : Nat) : List (Option Hash) :=
  (List.range pairs).map fun i =>
    match nodes.getD (2 * i) none, nodes.getD (2 * i + 1) none with
    | none, none => none
    | l, r => some (comb depth l r)

/-- Outputs plus bridge length of one compact transaction. -/
def txLeafCount (tx : CompactTx) : Nat :=
  tx.outputs.length + (match tx.sapling_bridge with | some b => b.len | none => 0)

/-- Leaves contributed by one block. -/
def blockLeafCount (cb : CompactBlock) : Nat :=
  (cb.vtx.map txLeafCount).sum

/-- `count_cmxs`: total leaves (outputs plus bridge leaves) the batch adds
at depth 0 (sapling.rs lines 186-200). -/
def countCmxs (blocks : List CompactBlock) : Nat :=
  (blocks.map blockLeafCount).sum

/-- The level-0 vector the batch contributes (sapling.rs lines 186-200):
the concrete commitments of every output, and one `None` placeholder per
leaf hidden under a bridge. -/
def leafLevel (blocks : List CompactBlock) : List (Option Hash) :=
  blocks.flatMap fun cb =>
    cb.vtx.flatMap fun tx =>
      tx.outputs.map some ++
        (match tx.sapling_bridge with
          | some b => List.replicate b.len none
          | none => [])

/-- Default block (out-of-range indexing in the model; the source would
panic instead). -/
def dfltBlock : CompactBlock := { height := 0, vtx := [] }

/-- Default transaction. -/
def dfltTx : CompactTx := { hash := 0, outputs := [], spends := [], sapling_bridge := none }

/-- The (height, ivtx, vout, raw) tuples of the successful trial
decryptions of a batch, in (block, transaction, output) order (sapling.rs
lines 80-104; the source collects them from a channel fed by a parallel
iterator over the same tuples). -/
def decryptHits (dec : DecryptFn) (blocks : List CompactBlock) :
    List (Nat × Nat × Nat × RawNote) :=
  blocks.flatMap fun cb =>
    cb.vtx.enum.flatMap fun p =>
      p.2.outputs.enum.filterMap fun q =>
        (dec cb.height p.1 q.1 q.2).map fun raw => (cb.height, p.1, q.1, raw)

/-- Leaves contributed by the blocks strictly before the first block whose
height equals `h` (sapling.rs lines 109-121). -/
def leavesBeforeHeight : List CompactBlock → Nat → Nat
  | [], _ => 0
  | cb :: rest, h =>
    if cb.height = h then 0 else blockLeafCount cb + leavesBeforeHeight rest h

/-- Leaves contributed by the first `ivtx` transactions of a block
(sapling.rs lines 123-133). -/
def leavesBeforeTx (txs : List CompactTx) (ivtx : Nat) : Nat :=
  ((txs.take ivtx).map txLeafCount).sum

/-- Position assignment and note construction for one decrypted hit
(sapling.rs lines 107-156): the position is the synchronizer position plus
every leaf preceding the hit, the nullifier is derived from the note
material and the position, and the txid is copied from the block's
transaction. -/
def mkNote (nfOf : NullifierFn) (S : Synchronizer) (blocks : List CompactBlock)
    (hit : Nat × Nat × Nat × RawNote) : ReceivedNote :=
  let cb := blocks.getD (hit.1 - S.start - 1) dfltBlock
  let pos := S.position + leavesBeforeHeight blocks hit.1 +
    leavesBeforeTx cb.vtx hit.2.1 + hit.2.2.1
  { account := hit.2.2.2.account, height := hit.1, ivtx := hit.2.1
    vout := hit.2.2.1, value := hit.2.2.2.value, seed := hit.2.2.2.seed
    position := pos, nf := nfOf hit.2.2.2 pos
    txid := (cb.vtx.getD hit.2.1 dfltTx).hash
    witness := Witness.init, spent := none }

/-- A bridge with its leaf-range boundaries (`BridgeExt`, sapling.rs lines
39-43); `s` and `e` are `i32` in the source. -/
structure BridgeExt where
  b : Bridge
  s : Int
  e : Int
deriving DecidableEq, Repr

/-- Collect the batch's bridges with their absolute boundary positions
(sapling.rs lines 159-174): a running position `p` advances over outputs
and bridge spans; each bridge covers `[p, p + len - 1]`. -/
def collectBridges (startPos : Nat) (blocks : List CompactBlock) : List BridgeExt :=
  ((blocks.flatMap (·.vtx)).foldl
    (fun acc tx =>
      let p := acc.1 + tx.outputs.length
      match tx.sapling_bridge with
      | some b => (p + b.len, acc.2 ++ [⟨b, (p : Int), (p : Int) + (b.len : Int) - 1⟩])
      | none => (p, acc.2))
    ((startPos, []) : Nat × List BridgeExt)).2

/-- The even-rounded start index of the level at `depth`: the loop
decrements an odd `position >> depth` after inserting the frontier
sentinel (sapling.rs lines 180-184). -/
def levelStart (startPos depth : Nat) : Nat :=
  2 * ((startPos >>> depth) / 2)

/-- The level vector the per-note loop at `depth` observes: the running
`cmxs`, preceded by the frontier sentinel when `position >> depth` is odd
(the source unwraps `tree_state[depth]` there; 0 stands in for the panic
value), and extended with the batch leaves when `depth == 0` (sapling.rs
lines 179-201). -/
def levelPrefix (startPos depth : Nat) (slot : Option Hash)
    (blocks : List CompactBlock) (cmxs : List (Option Hash)) : List (Option Hash) :=
  let cmxs1 := if (startPos >>> depth) % 2 = 1 then some (slot.getD 0) :: cmxs else cmxs
  if depth = 0 then cmxs1 ++ leafLevel blocks else cmxs1

/-- Witness update of a newly received note at one depth (sapling.rs lines
203-221): at depth 0 record the leaf position and value (the source
unwraps `cmxs[nidx]`; 0 stands in for the panic value); store the ommer
from the level vector, `None` when the sibling index falls outside it. -/
def updateNoteAtDepth (depth pos : Nat) (cmxs : List (Option Hash))
    (n : ReceivedNote) : ReceivedNote :=
  let npos := n.position >>> depth
  let nidx := npos - pos
  let n1 :=
    if depth = 0 then
      { n with witness := { n.witness with
          position := npos,
          value := (cmxs.getD nidx none).getD 0 } }
    else n
  let omm :=
    if nidx % 2 = 0 then
      if nidx + 1 < cmxs.length then cmxs.getD (nidx + 1) none else none
    else cmxs.getD (nidx - 1) none
  { n1 with witness := { n1.witness with ommers := n1.witness.ommers.set depth omm } }

/-- The slot index computed for a bridge boundary at a depth: the `u32`
relative index masked with `0xFFFE` (sapling.rs lines 230 and 243) — the
mask rounds down to the even pair slot and, being only 16 bits wide, also
truncates the relative index modulo 2^16. -/
def bridgeSlot (x : Int) (pos : Nat) : Nat :=
  (x.toNat - pos) &&& 0xFFFE

/-- Write one bridge boundary sibling into the level vector: a `Left` hash
goes to the pair slot, a `Right` hash to the slot above it (sapling.rs
lines 231-255). -/
def applyBoundary (pos : Nat) (x : Int) (side : Option Side)
    (cmxs : List (Option Hash)) : List (Option Hash) :=
  match side with
  | none => cmxs
  | some (.left h) => cmxs.set (bridgeSlot x pos) (some h)
  | some (.right h) => cmxs.set (bridgeSlot x pos + 1) (some h)

/-- Process one bridge at one depth (sapling.rs lines 223-259): when the
bridge has a level for this depth, substitute head and tail siblings into
the level vector and shrink the boundaries with the truncating `i32`
divisions `s / 2` and `(e - 1) / 2`; otherwise leave the bridge as is. -/
def bridgeStep (depth pos : Nat) (st : List (Option Hash) × List BridgeExt)
    (be : BridgeExt) : List (Option Hash) × List BridgeExt :=
  if be.b.levels.length ≤ depth then (st.1, st.2 ++ [be]) else
  let level := be.b.levels.getD depth ⟨none, none⟩
  let cmxs1 := applyBoundary pos be.s level.head st.1
  let cmxs2 := applyBoundary pos be.e level.tail cmxs1
  (cmxs2, st.2 ++ [{ be with s := Int.tdiv be.s 2, e := Int.tdiv (be.e - 1) 2 }])

/-- All bridge substitutions at one depth. -/
def bridgesAtDepth (depth pos : Nat) (cmxs : List (Option Hash))
    (bs : List BridgeExt) : List (Option Hash) × List BridgeExt :=
  bs.foldl (bridgeStep depth pos) (cmxs, [])

/-- Fill an existing note's unset ommer at this depth with the second level
element (sapling.rs lines 261-268). -/
def fillOldNote (depth : Nat) (c1 : Option Hash) (n : ReceivedNote) : ReceivedNote :=
  if n.witness.ommers.getD depth none = none then
    { n with witness := { n.witness with ommers := n.witness.ommers.set depth c1 } }
  else n

/-- The state carried across depths by the loop of `Synchronizer::add`. -/
structure LoopState where
  cmxs : List (Option Hash)
  newNotes : List ReceivedNote
  oldNotes : List ReceivedNote
  bridges : List BridgeExt
  tree : List (Option Hash)
deriving DecidableEq, Repr

/-- One iteration of the depth loop of `Synchronizer::add` (sapling.rs
lines 179-279): sentinel and level construction, new-note witness update,
bridge substitution, old-note ommer fill, frontier slot update, and
compression to the next level. -/
def depthStep (comb : CombineFn) (startPos : Nat) (blocks : List CompactBlock)
    (st : LoopState) (depth : Nat) : LoopState :=
  let cmxs1 := levelPrefix startPos depth (st.tree.getD depth none) blocks st.cmxs
  let pos := levelStart startPos depth
  let newNotes := st.newNotes.map (updateNoteAtDepth depth pos cmxs1)
  let bres := bridgesAtDepth depth pos cmxs1 st.bridges
  let len := bres.1.length
  let oldNotes :=
    if 2 ≤ len then st.oldNotes.map (fillOldNote depth (bres.1.getD 1 none))
    else st.oldNotes
  let tree := st.tree.set depth
    (if len % 2 = 1 then bres.1.getD (len - 1) none else none)
  { cmxs := parallelCombineOpt comb depth bres.1 (len / 2)
    newNotes := newNotes, oldNotes := oldNotes, bridges := bres.2, tree := tree }

/-- The loop state before the first depth iteration. -/
def loopInit (dec : DecryptFn) (nfOf : NullifierFn) (S : Synchronizer)
    (blocks : List CompactBlock) : LoopState :=
  { cmxs := []
    newNotes := (decryptHits dec blocks).map (mkNote nfOf S blocks)
    oldNotes := S.notes
    bridges := collectBridges S.position blocks
    tree := S.tree_state }

/-- The loop state after the first `k` depth iterations. -/
def loopIter (comb : CombineFn) (dec : DecryptFn) (nfOf : NullifierFn)
    (S : Synchronizer) (blocks : List CompactBlock) (k : Nat) : LoopState :=
  (List.range k).foldl (depthStep comb S.position blocks) (loopInit dec nfOf S blocks)

/-- The level vector the per-note loop at depth `d` observes (before the
bridge substitutions of that depth), as a function of the loop history. -/
def levelAt (comb : CombineFn) (dec : DecryptFn) (nfOf : NullifierFn)
    (S : Synchronizer) (blocks : List CompactBlock) (d : Nat) : List (Option Hash) :=
  levelPrefix S.position d ((loopIter comb dec nfOf S blocks d).tree.getD d none)
    blocks (loopIter comb dec nfOf S blocks d).cmxs

/-- The level vector at depth `d` after that depth's bridge substitutions
(the vector whose tail feeds `tree_state[d]` and the next level). -/
def bridgedLevelAt (comb : CombineFn) (dec : DecryptFn) (nfOf : NullifierFn)
    (S : Synchronizer) (blocks : List CompactBlock) (d : Nat) : List (Option Hash) :=
  (bridgesAtDepth d (levelStart S.position d)
    (levelAt comb dec nfOf S blocks d)
    (loopIter comb dec nfOf S blocks d).bridges).1

/-- The ommer value the claim's rule prescribes: `cmxs[nidx ^ 1]` when that
index is within the level vector and `None` otherwise. -/
def claimedOmmer (cmxs : List (Option Hash)) (nidx : Nat) : Option Hash :=
  if nidx ^^^ 1 < cmxs.length then cmxs.getD (nidx ^^^ 1) none else none

/-- The per-note witness update accumulated over the first `k` depths. -/
def updAll (comb : CombineFn) (dec : DecryptFn) (nfOf : NullifierFn)
    (S : Synchronizer) (blocks : List CompactBlock) (k : Nat)
    (n : ReceivedNote) : ReceivedNote :=
  (List.range k).foldl
    (fun m d => updateNoteAtDepth d (levelStart S.position d)
      (levelAt comb dec nfOf S blocks d) m) n

/-- The per-old-note ommer fill accumulated over the first `k` depths. -/
def fillAll (comb : CombineFn) (dec : DecryptFn) (nfOf : NullifierFn)
    (S : Synchronizer) (blocks : List CompactBlock) (k : Nat)
    (n : ReceivedNote) : ReceivedNote :=
  (List.range k).foldl
    (fun m d =>
      if 2 ≤ (bridgedLevelAt comb dec nfOf S blocks d).length then
        fillOldNote d ((bridgedLevelAt comb dec nfOf S blocks d).getD 1 none) m
      else m) n

/-- The flattened (height, txid, nullifier) spend descriptions of a batch
in iteration order (sapling.rs lines 294-297). -/
def spendsOf (blocks : List CompactBlock) : List (Nat × Hash × Hash) :=
  blocks.flatMap fun cb =>
    cb.vtx.flatMap fun tx => tx.spends.map fun nf => (cb.height, tx.hash, nf)

/-- The note index a nullifier resolves to: the source builds a `HashMap`
from nullifier to `&mut` note in which a later note with the same key
overrides an earlier one, hence the last matching index. -/
def lastNfIdx (ns : List ReceivedNote) (nf : Hash) : Option Nat :=
  (List.range ns.length).foldl
    (fun acc j => if (ns.getD j default).nf = nf then some j else acc) none

/-- The negative-value update recorded for a spent note (sapling.rs lines
300-307). -/
def noteSpendUpdate (n : ReceivedNote) (height : Nat) (txid : Hash) :
    TxValueUpdate Hash :=
  { account := n.account, txid := txid, value := -(n.value : Int), id_tx := 0
    height := height, id_spent := some n.nf }

/-- Processing of one spend description (sapling.rs lines 296-310): when
the nullifier matches a held note, mark it spent at the block height and
append the negative update. -/
def spendStep (st : List ReceivedNote × List (TxValueUpdate Hash))
    (t : Nat × Hash × Hash) : List ReceivedNote × List (TxValueUpdate Hash) :=
  match lastNfIdx st.1 t.2.2 with
  | none => st
  | some k =>
    (st.1.set k { st.1.getD k default with spent := some t.1 },
      st.2 ++ [noteSpendUpdate (st.1.getD k default) t.1 t.2.1])

/-- Spend detection over a whole batch (sapling.rs lines 287-312). -/
def detectSpends (blocks : List CompactBlock)
    (init : List ReceivedNote × List (TxValueUpdate Hash)) :
    List ReceivedNote × List (TxValueUpdate Hash) :=
  (spendsOf blocks).foldl spendStep init

/-- The note list `Synchronizer::add` holds when spend detection starts:
the existing notes (with extended witnesses) followed by the notes
decrypted from this batch (sapling.rs line 283). -/
def notesPreSpend (comb : CombineFn) (dec : DecryptFn) (nfOf : NullifierFn)
    (S : Synchronizer) (blocks : List CompactBlock) : List ReceivedNote :=
  (loopIter comb dec nfOf S blocks MERKLE_DEPTH).oldNotes ++
    (loopIter comb dec nfOf S blocks MERKLE_DEPTH).newNotes

/-- `Synchronizer::add` (src/src/warp/sync/sapling.rs lines 73-322) as a
pure state transition: decrypt and place the batch's notes, extend every
witness across the depth loop, advance position and start, then detect
spends by nullifier (observing the notes only after decrypt and position
assignment). -/
def Synchronizer.add (comb : CombineFn) (dec : DecryptFn) (nfOf : NullifierFn)
    (S : Synchronizer) (blocks : List CompactBlock) : Synchronizer :=
  let stF := loopIter comb dec nfOf S blocks MERKLE_DEPTH
  let res := detectSpends blocks (notesPreSpend comb dec nfOf S blocks, S.spends)
  { start := S.start + blocks.length
    notes := res.1
    spends := res.2
    position := S.position + countCmxs blocks
    tree_state := stF.tree }

/-- The offset the claim C2 describes for a hit in block index `bi` and
transaction index `ti`: the summed output-plus-bridge leaf counts of every
transaction strictly preceding it in (block, transaction) order. -/
def claimedOffset (blocks : List CompactBlock) (bi ti : Nat) : Nat :=
  (((blocks.take bi).flatMap (·.vtx)).map txLeafCount).sum +
    leavesBeforeTx (blocks.getD bi dfltBlock).vtx ti

/-- Default decryption hit (used only as a `getD` fallback). -/
def dfltHit : Nat × Nat × Nat × RawNote := (0, 0, 0, { account := 0, value := 0, seed := 0 })

/-! ### Concrete scenario data -/

/-- An injective stand-in compression function for concrete scenarios
(counterexamples at depth 0 are independent of the hasher). -/
def combX : CombineFn := fun d l r => 1 + d + 2 * l.getD 0 + 3 * r.getD 0

/-- A decryption function with no hits. -/
def decNone : DecryptFn := fun _ _ _ _ => none

/-- A trivial nullifier derivation. -/
def nfZero : NullifierFn := fun _ _ => 0

/-- An all-empty frontier. -/
def emptyEdge : List (Option Hash) := List.replicate MERKLE_DEPTH none

/-- C1 scenario: an existing note at position 0 whose depth-0 ommer is
already set from an earlier batch. -/
def oldNoteC1 : ReceivedNote :=
  { account := 1, height := 5, ivtx := 0, vout := 0, value := 7, seed := 0
    position := 0, nf := 500, txid := 9
    witness := { position := 0, value := 11, ommers := emptyEdge.set 0 (some 99) }
    spent := none }

/-- C1 scenario: synchronizer holding `oldNoteC1` with two leaves in the
tree (frontier slot 1 filled). -/
def syncC1 : Synchronizer :=
  { start := 10, notes := [oldNoteC1], spends := [], position := 2
    tree_state := emptyEdge.set 1 (some 77) }

/-- C1 scenario: a batch adding a single output commitment. -/
def blocksC1 : List CompactBlock :=
  [{ height := 11
     vtx := [{ hash := 21, outputs := [55], spends := [], sapling_bridge := none }] }]

/-- C4 scenario: a batch whose single transaction carries a bridge of one
leaf with no levels, so the frontier slot of the odd position stays
`None`. -/
def blocksC4 : List CompactBlock :=
  [{ height := 1
     vtx := [{ hash := 1, outputs := [], spends := []
               sapling_bridge := some { len := 1, levels := [] } }] }]

/-- C4 scenario: a fresh synchronizer over the empty tree. -/
def syncC4 : Synchronizer :=
  { start := 0, notes := [], spends := [], position := 0, tree_state := emptyEdge }

/-- C2 scenario (bridge skip): one output, then a bridge of three leaves
with one level, then one output. -/
def blocksC2 : List CompactBlock :=
  [{ height := 1
     vtx := [{ hash := 11, outputs := [5], spends := [], sapling_bridge := none }] },
   { height := 2
     vtx := [{ hash := 12, outputs := [], spends := []
               sapling_bridge := some
                 { len := 3
                   levels := [{ head := some (.right 70), tail := some (.left 71) }] } }] },
   { height := 3
     vtx := [{ hash := 13, outputs := [6], spends := [], sapling_bridge := none }] }]

/-- C2 scenario: fresh synchronizer at position 0, start 0. -/
def syncC2 : Synchronizer :=
  { start := 0, notes := [], spends := [], position := 0, tree_state := emptyEdge }

/-- C2 scenario: every first output of the first transaction of blocks 1
and 3 decrypts. -/
def decC2 : DecryptFn := fun h ivtx vout _ =>
  if (h = 1 ∨ h = 3) ∧ ivtx = 0 ∧ vout = 0 then
    some { account := 1, value := 4, seed := 0 }
  else none

/-- C5 scenario (same-batch self-spend): the single output of block 100
decrypts to account 1. -/
def decC5 : DecryptFn := fun h ivtx vout _ =>
  if h = 100 ∧ ivtx = 0 ∧ vout = 0 then
    some { account := 1, value := 7, seed := 3 }
  else none

/-- C5 scenario: nullifier derived injectively from seed and position. -/
def nfC5 : NullifierFn := fun raw pos => 1000 + raw.seed + pos

/-- C5 scenario: a note received in block 100 and spent in block 101 of
the same batch (nullifier 1003 = 1000 + seed 3 + position 0). -/
def blocksC5 : List CompactBlock :=
  [{ height := 100
     vtx := [{ hash := 61, outputs := [50], spends := [], sapling_bridge := none }] },
   { height := 101
     vtx := [{ hash := 62, outputs := [], spends := [1003], sapling_bridge := none }] }]

/-- C5 scenario: fresh synchronizer with start 99 (so block 100 is the
first of the batch). -/
def syncC5 : Synchronizer :=
  { start := 99, notes := [], spends := [], position := 0, tree_state := emptyEdge }

/-- C7 scenario: a well-formed synchronizer with one leaf in the tree. -/
def syncC7 : Synchronizer :=
  { start := 4, notes := [oldNoteC1], spends := [], position := 1
    tree_state := emptyEdge.set 0 (some 5) }

/-- C6 failing input: a bridge whose start boundary sits 65536 leaves into
the batch level. -/
def bridgeC6 : BridgeExt :=
  { b := { len := 2, levels := [{ head := some (.left 81), tail := none }] }
    s := 65536, e := 65537 }

/-- C6 failing input: a level vector of 65538 slots, all empty. -/
def levelC6 : List (Option Hash) := List.replicate 65538 none

/-! ### Theorems -/

theorem getD_set_ne {α : Type} (l : List α) (i j : Nat) (v d : α) (h : i ≠ j) :
    (l.set i v).getD j d = l.getD j d := by
  simp [List.getD_eq_getElem?_getD, List.getElem?_set_ne h]

theorem getD_set_self {α : Type} (l : List α) (j : Nat) (v d : α) (h : j < l.length) :
    (l.set j v).getD j d = v := by
  simp [List.getD_eq_getElem?_getD, h]

theorem getD_mem {α : Type} (l : List α) (j : Nat) (d : α) (h : j < l.length) :
    l.getD j d ∈ l := by
  simpa [List.getD_eq_getElem?_getD, List.getElem?_eq_getElem h] using List.getElem_mem h

theorem set_getD_eq {α : Type} : ∀ (l : List α) (n : Nat) (d : α),
    l.set n (l.getD n d) = l
  | [], _, _ => rfl
  | _ :: _, 0, _ => rfl
  | a :: l, n+1, d => congrArg (List.cons a) (set_getD_eq l n d)

theorem feeSum_eq_spec (m : FeeManager) :
    m.feeSum = specT m + specS m + specO m := by
  unfold FeeManager.feeSum specT specS specO
  by_cases h : m.num_inputs.get 1 > 0 <;> simp [h] <;> omega

theorem s_term_mono_in (ci ci' o1 : Nat) (h : ci ≤ ci') :
    Nat.max ci (if ci > 0 then Nat.max o1 2 else o1) ≤
      Nat.max ci' (if ci' > 0 then Nat.max o1 2 else o1) := by
  rcases Nat.eq_zero_or_pos ci with h0 | h0
  · subst h0
    rcases Nat.eq_zero_or_pos ci' with h1 | h1
    · subst h1; exact le_rfl
    · rw [if_neg (lt_irrefl 0), if_pos h1]
      exact max_le (Nat.zero_le _)
        (le_trans (le_max_left o1 2) (le_max_right _ _))
  · have h1 : 0 < ci' := lt_of_lt_of_le h0 h
    rw [if_pos h0, if_pos h1]
    exact max_le_max h le_rfl

theorem s_term_mono_out (ci o1 o1' : Nat) (h : o1 ≤ o1') :
    Nat.max ci (if ci > 0 then Nat.max o1 2 else o1) ≤
      Nat.max ci (if ci > 0 then Nat.max o1' 2 else o1') := by
  split_ifs
  · exact max_le_max le_rfl (max_le_max h le_rfl)
  · exact max_le_max le_rfl h

theorem o_term_mono (a b a' b' : Nat) (ha : a ≤ a') (hb : b ≤ b') :
    (if a > 0 ∨ b > 0 then Nat.max (Nat.max a b) 2 else 0) ≤
      (if a' > 0 ∨ b' > 0 then Nat.max (Nat.max a' b') 2 else 0) := by
  by_cases h0 : a > 0 ∨ b > 0
  · have h2 : a' > 0 ∨ b' > 0 := by omega
    rw [if_pos h0, if_pos h2]
    exact max_le_max (max_le_max ha hb) le_rfl
  · rw [if_neg h0]
    exact Nat.zero_le _

theorem feeSum_le_withInput (m : FeeManager) (pool : Nat)
    (hc : m.num_inputs.get pool < 255) :
    m.feeSum ≤ (m.withInput pool).feeSum := by
  rcases pool with _ | _ | _ | n
  · have hc' : m.num_inputs.c0 < 255 := hc
    simp only [FeeManager.feeSum, FeeManager.withInput, Counts3.incr, Counts3.get]
    exact Nat.add_le_add (Nat.add_le_add (max_le_max (by omega) le_rfl) le_rfl) le_rfl
  · have hc' : m.num_inputs.c1 < 255 := hc
    simp only [FeeManager.feeSum, FeeManager.withInput, Counts3.incr, Counts3.get]
    exact Nat.add_le_add
      (Nat.add_le_add le_rfl (s_term_mono_in _ _ _ (by omega))) le_rfl
  · have hc' : m.num_inputs.c2 < 255 := hc
    simp only [FeeManager.feeSum, FeeManager.withInput, Counts3.incr, Counts3.get]
    exact Nat.add_le_add le_rfl (o_term_mono _ _ _ _ (by omega) le_rfl)
  · simp [FeeManager.withInput, Counts3.incr]

theorem feeSum_le_withOutput (m : FeeManager) (pool : Nat)
    (hc : m.num_outputs.get pool < 255) :
    m.feeSum ≤ (m.withOutput pool).feeSum := by
  rcases pool with _ | _ | _ | n
  · have hc' : m.num_outputs.c0 < 255 := hc
    simp only [FeeManager.feeSum, FeeManager.withOutput, Counts3.incr, Counts3.get]
    exact Nat.add_le_add (Nat.add_le_add (max_le_max le_rfl (by omega)) le_rfl) le_rfl
  · have hc' : m.num_outputs.c1 < 255 := hc
    simp only [FeeManager.feeSum, FeeManager.withOutput, Counts3.incr, Counts3.get]
    exact Nat.add_le_add
      (Nat.add_le_add le_rfl (s_term_mono_out _ _ _ (by omega))) le_rfl
  · have hc' : m.num_outputs.c2 < 255 := hc
    simp only [FeeManager.feeSum, FeeManager.withOutput, Counts3.incr, Counts3.get]
    exact Nat.add_le_add le_rfl (o_term_mono _ _ _ _ le_rfl (by omega))
  · simp [FeeManager.withOutput, Counts3.incr]

/-- C3, counterexample: the claim quantifies over every `FeeManager` state,
but at the valid `u8` state with 255 transparent inputs and one Orchard input
the `u8` sum `t + s + o = 257` wraps, so `fee()` returns 5000 and not
`(t + s + o) * 5000 = 1285000`. -/
theorem c3_fee_overflow_counterexample :
    FeeManager.fee feeOverflowState = 5000 ∧
    specFee feeOverflowState = 1285000 ∧
    FeeManager.fee feeOverflowState ≠ specFee feeOverflowState := by
  decide

/-- C3 (amended): whenever the padded action total `t + s + o` stays below
256 (so that the `u8` sum does not wrap), `fee()` equals `(t + s + o) * 5000`
with `t`, `s`, `o` exactly as the claim states them; in particular a
`FeeManager` with one Orchard input and no outputs returns 10000. -/
theorem c3_fee_formula (m : FeeManager)
    (h : specT m + specS m + specO m < 256) :
    m.fee = specFee m ∧ FeeManager.fee feeOrchardState = 10000 := by
  refine ⟨?_, by decide⟩
  unfold FeeManager.fee specFee
  rw [feeSum_eq_spec, Nat.mod_eq_of_lt h]

theorem c3_fee_formula_witness :
    (specT feeOrchardState + specS feeOrchardState + specO feeOrchardState < 256) ∧
    (FeeManager.fee feeOrchardState = specFee feeOrchardState ∧
      FeeManager.fee feeOrchardState = 10000) :=
  ⟨by decide, c3_fee_formula feeOrchardState (by decide)⟩

/-- C10, counterexample: at the valid `u8` state with 253 transparent inputs
and one Orchard input the padded total is 255; adding one more transparent
input wraps the `u8` sum to 0, so `fee()` decreases from 1275000 to 0 and the
returned `u64` delta wraps to 2^64 - 1275000. -/
theorem c10_fee_decrease_counterexample :
    (feeWrapState.add_input 0).1.fee < feeWrapState.fee ∧
    (feeWrapState.add_input 0).2 = 2 ^ 64 - 1275000 := by
  decide

/-- C10 (amended): provided the incremented counter does not wrap a `u8`
(counter below 255) and the padded action total after the addition stays
below 256, `add_input` and `add_output` never decrease `fee()`, and the
`u64` delta each returns equals the exact difference `fee after - fee
before`, hence is non-negative. -/
theorem c10_fee_monotone (m : FeeManager) (pool : Nat)
    (hci : m.num_inputs.get pool < 255) (hco : m.num_outputs.get pool < 255)
    (hsi : (m.withInput pool).feeSum < 256) (hso : (m.withOutput pool).feeSum < 256) :
    (m.fee ≤ (m.add_input pool).1.fee ∧
      (m.add_input pool).2 = (m.add_input pool).1.fee - m.fee) ∧
    (m.fee ≤ (m.add_output pool).1.fee ∧
      (m.add_output pool).2 = (m.add_output pool).1.fee - m.fee) := by
  have h1 := feeSum_le_withInput m pool hci
  have h2 := feeSum_le_withOutput m pool hco
  simp only [FeeManager.add_input, FeeManager.add_output, FeeManager.fee]
  refine ⟨⟨?_, ?_⟩, ?_, ?_⟩ <;> omega

theorem c10_fee_monotone_witness :
    (feeOrchardState.num_inputs.get 1 < 255 ∧ feeOrchardState.num_outputs.get 1 < 255 ∧
      (feeOrchardState.withInput 1).feeSum < 256 ∧ (feeOrchardState.withOutput 1).feeSum < 256) ∧
    ((feeOrchardState.fee ≤ (feeOrchardState.add_input 1).1.fee ∧
        (feeOrchardState.add_input 1).2 = (feeOrchardState.add_input 1).1.fee - feeOrchardState.fee) ∧
      (feeOrchardState.fee ≤ (feeOrchardState.add_output 1).1.fee ∧
        (feeOrchardState.add_output 1).2 = (feeOrchardState.add_output 1).1.fee - feeOrchardState.fee)) :=
  ⟨⟨by decide, by decide, by decide, by decide⟩,
    c10_fee_monotone feeOrchardState 1 (by decide) (by decide) (by decide) (by decide)⟩

/-- C9, counterexample: `to_extended` on a decodable transparent address sets
`pool = 0`, not the `PoolMask` bitset with bit 0 = T (which would be 1); a
unified address with both receivers gets `pool = 3`, not `2 + 4 = 6`. -/
theorem c9_pool_mask_counterexample :
    toExtended { address := some .transparent, amount := 10 } =
      some { amount := 10, remaining := 10, pool := 0 } ∧
    claimedPoolMask .transparent = 1 ∧
    addressPool .transparent ≠ claimedPoolMask .transparent ∧
    addressPool (.unified true true) = 3 ∧
    claimedPoolMask (.unified true true) = 6 := by
  decide

/-- C9 (amended): for every payment item whose address decodes,
`to_extended` sets `pool` to the bitset of the address's shielded receivers
under the convention bit 0 = S, bit 1 = O (so a transparent address yields 0
and a shielded Sapling address yields 1), and copies the amount into
`amount` and `remaining`; an undecodable address yields an error. -/
theorem c9_to_extended (p : PaymentItemM) (a : RecipientAddress)
    (h : p.address = some a) :
    toExtended p = some { amount := p.amount, remaining := p.amount
                          pool := shieldedReceiverMask a } ∧
    (∀ q : PaymentItemM, q.address = none → toExtended q = none) := by
  refine ⟨?_, fun q hq => by simp [toExtended, hq]⟩
  cases a <;> simp [toExtended, h, addressPool, shieldedReceiverMask]

theorem c9_to_extended_witness :
    (({ address := some .shielded, amount := 25 } : PaymentItemM).address = some .shielded) ∧
    (toExtended { address := some .shielded, amount := 25 } =
        some { amount := 25, remaining := 25, pool := shieldedReceiverMask .shielded } ∧
      (∀ q : PaymentItemM, q.address = none → toExtended q = none)) :=
  ⟨rfl, c9_to_extended { address := some .shielded, amount := 25 } .shielded rfl⟩

/-- C8, counterexample: processing a transaction whose input spends the held
outpoint (42, 0) appends the negative `TxValueUpdate`, but the matched UTXO
is not marked spent — the `UTXO` struct has no spent flag and the UTXO list
is left exactly as it was. -/
theorem c8_no_spent_marking_counterexample :
    (processTxs tSync0 [tSpendTx]).utxos = tSync0.utxos ∧
    (processTxs tSync0 [tSpendTx]).tx_updates =
      [{ id_tx := 0, account := 1, txid := 43, value := -1000, height := 20
         id_spent := some ⟨42, 0⟩ }] := by
  decide

theorem vinStep_utxos (tx : TransparentTxM) (S : TransparentSync) (vin : OutPoint) :
    (vinStep tx S vin).utxos = S.utxos := by
  unfold vinStep
  rcases h : S.utxos.find? (fun u => u.txid == vin.txid && u.vout == vin.vout) with _ | u <;>
    rw [h]

theorem vinsFold_utxos (tx : TransparentTxM) :
    ∀ (l : List OutPoint) (S : TransparentSync),
      (l.foldl (vinStep tx) S).utxos = S.utxos
  | [], _ => rfl
  | v :: vs, S => by
    rw [List.foldl_cons, vinsFold_utxos tx vs, vinStep_utxos]

theorem vinsFold_mono (tx : TransparentTxM) :
    ∀ (l : List OutPoint) (S : TransparentSync) (x : TxValueUpdate OutPoint),
      x ∈ S.tx_updates → x ∈ (l.foldl (vinStep tx) S).tx_updates
  | [], _, _, hx => hx
  | v :: vs, S, x, hx => by
    rw [List.foldl_cons]
    refine vinsFold_mono tx vs _ x ?_
    unfold vinStep
    rcases h : S.utxos.find? (fun u => u.txid == v.txid && u.vout == v.vout) with _ | u <;>
      rw [h]
    · exact hx
    · exact List.mem_append_left _ hx

theorem vinsFold_hit (tx : TransparentTxM) :
    ∀ (l : List OutPoint) (S : TransparentSync) (vin : OutPoint) (u : UTXO),
      vin ∈ l →
      S.utxos.find? (fun w => w.txid == vin.txid && w.vout == vin.vout) = some u →
      spendUpdate tx vin u ∈ (l.foldl (vinStep tx) S).tx_updates
  | [], _, _, _, hv, _ => absurd hv (List.not_mem_nil _)
  | v :: vs, S, vin, u, hv, hu => by
    rw [List.foldl_cons]
    rcases List.mem_cons.1 hv with rfl | hv2
    · refine vinsFold_mono tx vs _ _ ?_
      unfold vinStep
      rw [hu]
      exact List.mem_append_right _ (List.mem_singleton.2 rfl)
    · refine vinsFold_hit tx vs (vinStep tx S v) vin u hv2 ?_
      rw [vinStep_utxos, hu]

theorem voutsFold_updates (tx : TransparentTxM) :
    ∀ (l : List TxOutM) (S : TransparentSync),
      (l.foldl (voutStep tx) S).tx_updates = S.tx_updates
  | [], _ => rfl
  | o :: os, S => by
    rw [List.foldl_cons, voutsFold_updates tx os]
    rfl

/-- C8 (amended): for every transaction processed by `process_txs`, each
input whose previous outpoint matches a held UTXO appends the negative
`TxValueUpdate` with `value = -(utxo.value)` and `id_spent = Some(outpoint)`;
the matched UTXO is however not marked spent — `process_txs` does not modify
the UTXO set for inputs (a transaction with no outputs leaves `utxos`
exactly unchanged), spent status being applied downstream from the emitted
update. -/
theorem c8_process_txs (S : TransparentSync) (tx : TransparentTxM)
    (vin : OutPoint) (u : UTXO) (hv : vin ∈ tx.vins)
    (hu : S.utxos.find? (fun w => w.txid == vin.txid && w.vout == vin.vout) = some u) :
    spendUpdate tx vin u ∈ (processTxs S [tx]).tx_updates ∧
    (∀ (T : TransparentSync) (t : TransparentTxM), t.vouts = [] →
      (processTxs T [t]).utxos = T.utxos) := by
  constructor
  · show spendUpdate tx vin u ∈ (processVouts (processVins S tx) tx).tx_updates
    unfold processVouts
    rw [voutsFold_updates]
    exact vinsFold_hit tx tx.vins S vin u hv hu
  · intro T t ht
    show (processVouts (processVins T t) t).utxos = T.utxos
    unfold processVouts
    rw [ht]
    exact vinsFold_utxos t t.vins T

/-! ### Depth-loop structure lemmas -/

theorem even_xor_one (k : Nat) : (2 * k) ^^^ 1 = 2 * k + 1 := by
  have h := Nat.xor_bit false k true 0
  simpa [Nat.bit, Nat.xor_zero] using h

theorem odd_xor_one (k : Nat) : (2 * k + 1) ^^^ 1 = 2 * k := by
  have h := Nat.xor_bit true k true 0
  simpa [Nat.bit, Nat.xor_zero] using h

theorem getD_map {α β : Type} (l : List α) (f : α → β) (i : Nat) (d : β) (d2 : α)
    (h : i < l.length) : (l.map f).getD i d = f (l.getD i d2) := by
  simp [List.getD_eq_getElem?_getD, List.getElem?_map, List.getElem?_eq_getElem h]

theorem getD_oob {α : Type} (l : List α) (i : Nat) (d : α) (h : l.length ≤ i) :
    l.getD i d = d := by
  simp [List.getD_eq_getElem?_getD, List.getElem?_eq_none h]

theorem omm_eq_claimed (cmxs : List (Option Hash)) (nidx : Nat) :
    (if nidx % 2 = 0 then
       if nidx + 1 < cmxs.length then cmxs.getD (nidx + 1) none else none
     else cmxs.getD (nidx - 1) none) = claimedOmmer cmxs nidx := by
  unfold claimedOmmer
  rcases Nat.even_or_odd nidx with ⟨k, hk⟩ | ⟨k, hk⟩
  · have h2 : nidx = 2 * k := by omega
    subst h2
    rw [if_pos (by omega), even_xor_one]
  · subst hk
    rw [if_neg (by omega), odd_xor_one]
    have h3 : 2 * k + 1 - 1 = 2 * k := by omega
    rw [h3]
    rcases lt_or_ge (2 * k) cmxs.length with h4 | h4
    · rw [if_pos h4]
    · rw [if_neg (not_lt.2 h4), getD_oob _ _ _ h4]

theorem updateNote_fields (depth pos : Nat) (cmxs : List (Option Hash)) (n : ReceivedNote) :
    updateNoteAtDepth depth pos cmxs n =
      { n with witness := (updateNoteAtDepth depth pos cmxs n).witness } := by
  simp only [updateNoteAtDepth]
  split <;> rfl

theorem updateNote_position (depth pos : Nat) (cmxs : List (Option Hash)) (n : ReceivedNote) :
    (updateNoteAtDepth depth pos cmxs n).position = n.position := by
  conv_lhs => rw [updateNote_fields]

theorem updateNote_ommers_len (depth pos : Nat) (cmxs : List (Option Hash)) (n : ReceivedNote) :
    (updateNoteAtDepth depth pos cmxs n).witness.ommers.length =
      n.witness.ommers.length := by
  simp only [updateNoteAtDepth]
  split <;> simp

theorem updateNote_ommers_ne (depth pos : Nat) (cmxs : List (Option Hash)) (n : ReceivedNote)
    (d : Nat) (hd : d ≠ depth) :
    (updateNoteAtDepth depth pos cmxs n).witness.ommers.getD d none =
      n.witness.ommers.getD d none := by
  simp only [updateNoteAtDepth]
  split <;> exact getD_set_ne _ _ _ _ _ (Ne.symm hd)

theorem updateNote_ommers_self (depth pos : Nat) (cmxs : List (Option Hash)) (n : ReceivedNote)
    (hlen : depth < n.witness.ommers.length) :
    (updateNoteAtDepth depth pos cmxs n).witness.ommers.getD depth none =
      claimedOmmer cmxs (n.position >>> depth - pos) := by
  rw [← omm_eq_claimed]
  simp only [updateNoteAtDepth]
  split <;> exact getD_set_self _ _ _ _ hlen

theorem updateNote_value_zero (pos : Nat) (cmxs : List (Option Hash)) (n : ReceivedNote) :
    (updateNoteAtDepth 0 pos cmxs n).witness.value =
      (cmxs.getD (n.position >>> 0 - pos) none).getD 0 := by
  simp only [updateNoteAtDepth, if_pos rfl, if_true]

theorem updateNote_wpos_zero (pos : Nat) (cmxs : List (Option Hash)) (n : ReceivedNote) :
    (updateNoteAtDepth 0 pos cmxs n).witness.position = n.position >>> 0 := by
  simp only [updateNoteAtDepth, if_pos rfl, if_true]

theorem updateNote_value_ne (depth pos : Nat) (cmxs : List (Option Hash)) (n : ReceivedNote)
    (h : depth ≠ 0) :
    (updateNoteAtDepth depth pos cmxs n).witness.value = n.witness.value := by
  simp only [updateNoteAtDepth, if_neg h]

theorem updateNote_wpos_ne (depth pos : Nat) (cmxs : List (Option Hash)) (n : ReceivedNote)
    (h : depth ≠ 0) :
    (updateNoteAtDepth depth pos cmxs n).witness.position = n.witness.position := by
  simp only [updateNoteAtDepth, if_neg h]

theorem c8_process_txs_witness :
    ((⟨42, 0⟩ : OutPoint) ∈ tSpendTx.vins ∧
      tSync0.utxos.find?
        (fun w => w.txid == (42 : Nat) && w.vout == (0 : Nat)) =
        some { id := 7, account := 1, height := 10, txid := 42, vout := 0
               address := 5, value := 1000, is_new := false }) ∧
    (spendUpdate tSpendTx ⟨42, 0⟩
        { id := 7, account := 1, height := 10, txid := 42, vout := 0
          address := 5, value := 1000, is_new := false } ∈
        (processTxs tSync0 [tSpendTx]).tx_updates ∧
      (∀ (T : TransparentSync) (t : TransparentTxM), t.vouts = [] →
        (processTxs T [t]).utxos = T.utxos)) :=
  ⟨⟨by decide, by decide⟩,
    c8_process_txs tSync0 tSpendTx ⟨42, 0⟩ _ (by decide) (by decide)⟩

theorem fillOld_fields (depth : Nat) (c1 : Option Hash) (n : ReceivedNote) :
    fillOldNote depth c1 n = { n with witness := (fillOldNote depth c1 n).witness } := by
  unfold fillOldNote
  split <;> rfl

theorem fillOld_ommers_len (depth : Nat) (c1 : Option Hash) (n : ReceivedNote) :
    (fillOldNote depth c1 n).witness.ommers.length = n.witness.ommers.length := by
  unfold fillOldNote
  split <;> simp

theorem fillOld_ommers_ne (depth : Nat) (c1 : Option Hash) (n : ReceivedNote)
    (d : Nat) (hd : d ≠ depth) :
    (fillOldNote depth c1 n).witness.ommers.getD d none =
      n.witness.ommers.getD d none := by
  unfold fillOldNote
  split
  · exact getD_set_ne _ _ _ _ _ (Ne.symm hd)
  · rfl

theorem fillOld_ommers_self (depth : Nat) (c1 : Option Hash) (n : ReceivedNote)
    (hlen : depth < n.witness.ommers.length) :
    (fillOldNote depth c1 n).witness.ommers.getD depth none =
      (if n.witness.ommers.getD depth none = none then c1
       else n.witness.ommers.getD depth none) := by
  unfold fillOldNote
  split
  · exact getD_set_self _ _ _ _ hlen
  · rfl

section SyncLemmas

variable (comb : CombineFn) (dec : DecryptFn) (nfOf : NullifierFn)
variable (S : Synchronizer) (blocks : List CompactBlock)

theorem loopIter_succ (k : Nat) :
    loopIter comb dec nfOf S blocks (k + 1) =
      depthStep comb S.position blocks (loopIter comb dec nfOf S blocks k) k := by
  unfold loopIter
  rw [List.range_succ, List.foldl_append, List.foldl_cons, List.foldl_nil]

theorem updAll_zero (n : ReceivedNote) : updAll comb dec nfOf S blocks 0 n = n := by
  unfold updAll
  rw [List.range_zero, List.foldl_nil]

theorem updAll_succ (k : Nat) (n : ReceivedNote) :
    updAll comb dec nfOf S blocks (k + 1) n =
      updateNoteAtDepth k (levelStart S.position k)
        (levelAt comb dec nfOf S blocks k) (updAll comb dec nfOf S blocks k n) := by
  unfold updAll
  rw [List.range_succ, List.foldl_append, List.foldl_cons, List.foldl_nil]

theorem updAll_position (k : Nat) (n : ReceivedNote) :
    (updAll comb dec nfOf S blocks k n).position = n.position := by
  induction k with
  | zero => rw [updAll_zero]
  | succ k ih => rw [updAll_succ, updateNote_position, ih]

theorem updAll_ommers_len (k : Nat) (n : ReceivedNote) :
    (updAll comb dec nfOf S blocks k n).witness.ommers.length =
      n.witness.ommers.length := by
  induction k with
  | zero => rw [updAll_zero]
  | succ k ih => rw [updAll_succ, updateNote_ommers_len, ih]

theorem updAll_ommers (k d : Nat) (n : ReceivedNote) (hdk : d < k)
    (hlen : d < n.witness.ommers.length) :
    (updAll comb dec nfOf S blocks k n).witness.ommers.getD d none =
      claimedOmmer (levelAt comb dec nfOf S blocks d)
        (n.position >>> d - levelStart S.position d) := by
  induction k with
  | zero => omega
  | succ k ih =>
    rw [updAll_succ]
    rcases Nat.lt_succ_iff_lt_or_eq.1 hdk with h | rfl
    · rw [updateNote_ommers_ne _ _ _ _ _ (by omega)]
      exact ih h
    · rw [updateNote_ommers_self _ _ _ _ (by rw [updAll_ommers_len]; exact hlen),
        updAll_position]

theorem updAll_value (k : Nat) (n : ReceivedNote) (hk : 0 < k) :
    (updAll comb dec nfOf S blocks k n).witness.value =
      ((levelAt comb dec nfOf S blocks 0).getD
        (n.position >>> 0 - levelStart S.position 0) none).getD 0 := by
  induction k with
  | zero => omega
  | succ k ih =>
    rw [updAll_succ]
    rcases Nat.eq_zero_or_pos k with rfl | hk2
    · rw [updateNote_value_zero, updAll_zero]
    · rw [updateNote_value_ne _ _ _ _ (by omega)]
      exact ih hk2

theorem updAll_wpos (k : Nat) (n : ReceivedNote) (hk : 0 < k) :
    (updAll comb dec nfOf S blocks k n).witness.position = n.position >>> 0 := by
  induction k with
  | zero => omega
  | succ k ih =>
    rw [updAll_succ]
    rcases Nat.eq_zero_or_pos k with rfl | hk2
    · rw [updateNote_wpos_zero, updAll_zero]
    · rw [updateNote_wpos_ne _ _ _ _ (by omega)]
      exact ih hk2

theorem fillAll_zero (n : ReceivedNote) : fillAll comb dec nfOf S blocks 0 n = n := by
  unfold fillAll
  rw [List.range_zero, List.foldl_nil]

theorem fillAll_succ (k : Nat) (n : ReceivedNote) :
    fillAll comb dec nfOf S blocks (k + 1) n =
      (if 2 ≤ (bridgedLevelAt comb dec nfOf S blocks k).length then
        fillOldNote k ((bridgedLevelAt comb dec nfOf S blocks k).getD 1 none)
          (fillAll comb dec nfOf S blocks k n)
      else fillAll comb dec nfOf S blocks k n) := by
  unfold fillAll
  rw [List.range_succ, List.foldl_append, List.foldl_cons, List.foldl_nil]

theorem fillAll_ommers_len (k : Nat) (n : ReceivedNote) :
    (fillAll comb dec nfOf S blocks k n).witness.ommers.length =
      n.witness.ommers.length := by
  induction k with
  | zero => rw [fillAll_zero]
  | succ k ih =>
    rw [fillAll_succ]
    split
    · rw [fillOld_ommers_len, ih]
    · exact ih

theorem fillAll_ommers_untouched (k d : Nat) (n : ReceivedNote) (hkd : k ≤ d) :
    (fillAll comb dec nfOf S blocks k n).witness.ommers.getD d none =
      n.witness.ommers.getD d none := by
  induction k with
  | zero => rw [fillAll_zero]
  | succ k ih =>
    rw [fillAll_succ]
    split
    · rw [fillOld_ommers_ne _ _ _ _ (by omega)]
      exact ih (by omega)
    · exact ih (by omega)

theorem fillAll_ommers (k d : Nat) (n : ReceivedNote) (hdk : d < k)
    (hlen : d < n.witness.ommers.length) :
    (fillAll comb dec nfOf S blocks k n).witness.ommers.getD d none =
      (if 2 ≤ (bridgedLevelAt comb dec nfOf S blocks d).length ∧
          n.witness.ommers.getD d none = none then
        (bridgedLevelAt comb dec nfOf S blocks d).getD 1 none
      else n.witness.ommers.getD d none) := by
  induction k with
  | zero => omega
  | succ k ih =>
    rw [fillAll_succ]
    rcases Nat.lt_succ_iff_lt_or_eq.1 hdk with h | rfl
    · split
      · rw [fillOld_ommers_ne _ _ _ _ (by omega)]
        exact ih h
      · exact ih h
    · have huntouched := fillAll_ommers_untouched comb dec nfOf S blocks d d n le_rfl
      split
      · rw [fillOld_ommers_self _ _ _ (by rw [fillAll_ommers_len]; exact hlen), huntouched]
        by_cases hnone : n.witness.ommers.getD d none = none
        · rw [if_pos hnone, if_pos ⟨by assumption, hnone⟩]
        · rw [if_neg hnone, if_neg (by tauto)]
      · rw [huntouched, if_neg (by tauto)]

end SyncLemmas

theorem getD_append_left {α : Type} (l₁ l₂ : List α) (j : Nat) (d : α)
    (h : j < l₁.length) : (l₁ ++ l₂).getD j d = l₁.getD j d := by
  simp [List.getD_eq_getElem?_getD, List.getElem?_append, h]

theorem getD_append_right {α : Type} (l₁ l₂ : List α) (i : Nat) (d : α) :
    (l₁ ++ l₂).getD (l₁.length + i) d = l₂.getD i d := by
  rw [List.getD_eq_getElem?_getD, List.getElem?_append_right (by omega),
    List.getD_eq_getElem?_getD]
  congr 2
  omega

section IterChar

variable (comb : CombineFn) (dec : DecryptFn) (nfOf : NullifierFn)
variable (S : Synchronizer) (blocks : List CompactBlock)

theorem loopIter_zero : loopIter comb dec nfOf S blocks 0 = loopInit dec nfOf S blocks := by
  unfold loopIter
  rw [List.range_zero, List.foldl_nil]

theorem iter_newNotes (k : Nat) :
    (loopIter comb dec nfOf S blocks k).newNotes =
      ((decryptHits dec blocks).map (mkNote nfOf S blocks)).map
        (updAll comb dec nfOf S blocks k) := by
  induction k with
  | zero =>
    rw [loopIter_zero]
    show (decryptHits dec blocks).map (mkNote nfOf S blocks) = _
    exact ((List.map_congr_left fun n _ => updAll_zero comb dec nfOf S blocks n).trans
      (List.map_id _)).symm
  | succ k ih =>
    rw [loopIter_succ]
    show (loopIter comb dec nfOf S blocks k).newNotes.map
        (updateNoteAtDepth k (levelStart S.position k)
          (levelAt comb dec nfOf S blocks k)) = _
    rw [ih, List.map_map]
    exact List.map_congr_left fun n _ => (updAll_succ comb dec nfOf S blocks k n).symm

theorem iter_oldNotes (k : Nat) :
    (loopIter comb dec nfOf S blocks k).oldNotes =
      S.notes.map (fillAll comb dec nfOf S blocks k) := by
  induction k with
  | zero =>
    rw [loopIter_zero]
    show S.notes = _
    exact ((List.map_congr_left fun n _ => fillAll_zero comb dec nfOf S blocks n).trans
      (List.map_id _)).symm
  | succ k ih =>
    rw [loopIter_succ]
    show (if 2 ≤ (bridgedLevelAt comb dec nfOf S blocks k).length then
        (loopIter comb dec nfOf S blocks k).oldNotes.map
          (fillOldNote k ((bridgedLevelAt comb dec nfOf S blocks k).getD 1 none))
      else (loopIter comb dec nfOf S blocks k).oldNotes) = _
    rw [ih]
    by_cases hc : 2 ≤ (bridgedLevelAt comb dec nfOf S blocks k).length
    · rw [if_pos hc, List.map_map]
      refine List.map_congr_left fun n _ => ?_
      rw [fillAll_succ, if_pos hc]
      rfl
    · rw [if_neg hc]
      refine List.map_congr_left fun n _ => ?_
      rw [fillAll_succ, if_neg hc]

theorem iter_tree_len (k : Nat) :
    (loopIter comb dec nfOf S blocks k).tree.length = S.tree_state.length := by
  induction k with
  | zero => rw [loopIter_zero]; rfl
  | succ k ih =>
    rw [loopIter_succ]
    show ((loopIter comb dec nfOf S blocks k).tree.set k _).length = _
    rw [List.length_set, ih]

theorem iter_tree_stable (d k : Nat) (hdk : d < k) :
    (loopIter comb dec nfOf S blocks k).tree.getD d none =
      (loopIter comb dec nfOf S blocks (d + 1)).tree.getD d none := by
  induction k with
  | zero => omega
  | succ k ih =>
    rcases Nat.lt_succ_iff_lt_or_eq.1 hdk with h | rfl
    · rw [loopIter_succ]
      show ((loopIter comb dec nfOf S blocks k).tree.set k _).getD d none = _
      rw [getD_set_ne _ _ _ _ _ (by omega)]
      exact ih h
    · rfl

theorem iter_tree_write (d : Nat) (hd : d < S.tree_state.length) :
    (loopIter comb dec nfOf S blocks (d + 1)).tree.getD d none =
      (if (bridgedLevelAt comb dec nfOf S blocks d).length % 2 = 1 then
        (bridgedLevelAt comb dec nfOf S blocks d).getD
          ((bridgedLevelAt comb dec nfOf S blocks d).length - 1) none
      else none) := by
  rw [loopIter_succ]
  show ((loopIter comb dec nfOf S blocks d).tree.set d _).getD d none = _
  rw [getD_set_self _ _ _ _ (by rw [iter_tree_len]; exact hd)]
  rfl

theorem iter_tree_final (d : Nat) (hd : d < S.tree_state.length)
    (hdm : d < MERKLE_DEPTH) :
    (loopIter comb dec nfOf S blocks MERKLE_DEPTH).tree.getD d none =
      (if (bridgedLevelAt comb dec nfOf S blocks d).length % 2 = 1 then
        (bridgedLevelAt comb dec nfOf S blocks d).getD
          ((bridgedLevelAt comb dec nfOf S blocks d).length - 1) none
      else none) := by
  rw [iter_tree_stable comb dec nfOf S blocks d MERKLE_DEPTH hdm,
    iter_tree_write comb dec nfOf S blocks d hd]

end IterChar

theorem applyBoundary_len (pos : Nat) (x : Int) (side : Option Side)
    (cmxs : List (Option Hash)) : (applyBoundary pos x side cmxs).length = cmxs.length := by
  unfold applyBoundary
  rcases side with _ | s
  · rfl
  · rcases s with h | h <;> simp

theorem bridgeStep_len (depth pos : Nat) (st : List (Option Hash) × List BridgeExt)
    (be : BridgeExt) : (bridgeStep depth pos st be).1.length = st.1.length := by
  unfold bridgeStep
  split
  · rfl
  · rw [applyBoundary_len, applyBoundary_len]

theorem bridgesFold_len (depth pos : Nat) :
    ∀ (bs : List BridgeExt) (cmxs : List (Option Hash)) (acc : List BridgeExt),
      ((bs.foldl (bridgeStep depth pos) (cmxs, acc)).1).length = cmxs.length
  | [], _, _ => rfl
  | be :: bs, cmxs, acc => by
    rw [List.foldl_cons]
    have h1 : bridgeStep depth pos (cmxs, acc) be =
        ((bridgeStep depth pos (cmxs, acc) be).1, (bridgeStep depth pos (cmxs, acc) be).2) := rfl
    rw [h1, bridgesFold_len depth pos bs _ _, bridgeStep_len]

theorem bridgesAtDepth_len (depth pos : Nat) (cmxs : List (Option Hash))
    (bs : List BridgeExt) : ((bridgesAtDepth depth pos cmxs bs).1).length = cmxs.length :=
  bridgesFold_len depth pos bs cmxs []

theorem parallelCombineOpt_len (comb : CombineFn) (depth : Nat)
    (nodes : List (Option Hash)) (pairs : Nat) :
    (parallelCombineOpt comb depth nodes pairs).length = pairs := by
  simp [parallelCombineOpt]

theorem leafLevel_len (blocks : List CompactBlock) :
    (leafLevel blocks).length = countCmxs blocks := by
  unfold leafLevel countCmxs
  rw [List.length_flatMap]
  refine congrArg List.sum (List.map_congr_left fun cb _ => ?_)
  show (cb.vtx.flatMap _).length = blockLeafCount cb
  rw [List.length_flatMap]
  unfold blockLeafCount
  refine congrArg List.sum (List.map_congr_left fun tx _ => ?_)
  show (tx.outputs.map some ++ _).length = txLeafCount tx
  unfold txLeafCount
  rcases h : tx.sapling_bridge with _ | b <;> simp [h]

theorem shiftRight_succ_div (n m : Nat) : n >>> (m + 1) = (n >>> m) / 2 := by
  simp [Nat.shiftRight_succ, Nat.shiftRight_one]

section LevelLen

variable (comb : CombineFn) (dec : DecryptFn) (nfOf : NullifierFn)
variable (S : Synchronizer) (blocks : List CompactBlock)

theorem levelLen_invariant (d : Nat) :
    levelStart S.position d + (bridgedLevelAt comb dec nfOf S blocks d).length =
      (S.position + countCmxs blocks) >>> d := by
  induction d with
  | zero =>
    unfold bridgedLevelAt
    rw [bridgesAtDepth_len]
    unfold levelAt
    rw [loopIter_zero]
    show levelStart S.position 0 +
      (levelPrefix S.position 0 _ blocks ([] : List (Option Hash))).length = _
    unfold levelPrefix levelStart
    rw [if_pos rfl]
    by_cases hpar : (S.position >>> 0) % 2 = 1 <;>
      simp only [hpar, if_pos, if_neg, if_true, if_false, reduceIte,
        List.length_append, List.length_cons, List.length_nil, leafLevel_len] <;>
      rw [Nat.shiftRight_zero, Nat.shiftRight_zero] <;>
      omega
  | succ d ih =>
    have hc : (loopIter comb dec nfOf S blocks (d + 1)).cmxs.length =
        (bridgedLevelAt comb dec nfOf S blocks d).length / 2 := by
      rw [loopIter_succ]
      show (parallelCombineOpt comb d (bridgedLevelAt comb dec nfOf S blocks d)
        ((bridgedLevelAt comb dec nfOf S blocks d).length / 2)).length = _
      exact parallelCombineOpt_len _ _ _ _
    unfold bridgedLevelAt
    rw [bridgesAtDepth_len]
    unfold levelAt
    show levelStart S.position (d + 1) +
      (levelPrefix S.position (d + 1) _ blocks
        (loopIter comb dec nfOf S blocks (d + 1)).cmxs).length = _
    unfold levelPrefix levelStart
    unfold levelStart at ih
    rw [if_neg (Nat.succ_ne_zero d)]
    have hp := shiftRight_succ_div S.position d
    have hA := shiftRight_succ_div (S.position + countCmxs blocks) d
    by_cases hpar : (S.position >>> (d + 1)) % 2 = 1 <;>
      simp only [hpar, if_pos, if_neg, if_true, if_false, reduceIte,
        List.length_cons, hc] <;>
      omega

theorem levelLen_parity (d : Nat) :
    (bridgedLevelAt comb dec nfOf S blocks d).length % 2 =
      ((S.position + countCmxs blocks) >>> d) % 2 := by
  have h := levelLen_invariant comb dec nfOf S blocks d
  unfold levelStart at h
  omega

end LevelLen

/-- C4, counterexample: after ingesting a batch whose single transaction is
a bridge of one leaf providing no level hashes, the new position 1 is odd
at depth 0 yet `tree_state[0]` is `None` — the level's final element is a
bridge-hidden leaf, so the claimed "Some iff odd" equivalence fails. -/
theorem c4_frontier_counterexample :
    ((Synchronizer.add combX decNone nfZero syncC4 blocksC4).position >>> 0) % 2 = 1 ∧
    (Synchronizer.add combX decNone nfZero syncC4 blocksC4).tree_state.getD 0 none = none := by
  decide

/-- C4 (amended): at every depth `d`, `Synchronizer::add` sets
`tree_state[d]` to the final element of the level vector when the level
length is odd and to `None` when it is even; the level length has the same
parity as `position' >> d` for the advanced position, hence `tree_state[d]`
is `None` whenever `(position' >> d)` is even — but when it is odd the
stored element is the final level entry, which can itself be `None` when
that node is hidden under a bridge, so "Some iff odd" holds only in the
absence of such hidden frontier nodes. -/
theorem c4_frontier (comb : CombineFn) (dec : DecryptFn) (nfOf : NullifierFn)
    (S : Synchronizer) (blocks : List CompactBlock)
    (hlen : S.tree_state.length = MERKLE_DEPTH) (d : Nat) (hd : d < MERKLE_DEPTH) :
    ((Synchronizer.add comb dec nfOf S blocks).tree_state.getD d none =
      (if (bridgedLevelAt comb dec nfOf S blocks d).length % 2 = 1 then
        (bridgedLevelAt comb dec nfOf S blocks d).getD
          ((bridgedLevelAt comb dec nfOf S blocks d).length - 1) none
      else none)) ∧
    ((bridgedLevelAt comb dec nfOf S blocks d).length % 2 =
      ((Synchronizer.add comb dec nfOf S blocks).position >>> d) % 2) ∧
    (((Synchronizer.add comb dec nfOf S blocks).position >>> d) % 2 = 0 →
      (Synchronizer.add comb dec nfOf S blocks).tree_state.getD d none = none) := by
  have h1 : (Synchronizer.add comb dec nfOf S blocks).tree_state =
      (loopIter comb dec nfOf S blocks MERKLE_DEPTH).tree := by
    simp only [Synchronizer.add]
  have h2 : (Synchronizer.add comb dec nfOf S blocks).position =
      S.position + countCmxs blocks := by
    simp only [Synchronizer.add]
  have hpar := levelLen_parity comb dec nfOf S blocks d
  rw [h1, h2, iter_tree_final comb dec nfOf S blocks d (by omega) hd]
  refine ⟨rfl, hpar, fun hz => ?_⟩
  rw [if_neg (by omega)]

theorem c4_frontier_witness :
    (syncC2.tree_state.length = MERKLE_DEPTH ∧ 0 < MERKLE_DEPTH) ∧
    (((Synchronizer.add combX decC2 nfZero syncC2 blocksC2).tree_state.getD 0 none =
      (if (bridgedLevelAt combX decC2 nfZero syncC2 blocksC2 0).length % 2 = 1 then
        (bridgedLevelAt combX decC2 nfZero syncC2 blocksC2 0).getD
          ((bridgedLevelAt combX decC2 nfZero syncC2 blocksC2 0).length - 1) none
      else none)) ∧
    ((bridgedLevelAt combX decC2 nfZero syncC2 blocksC2 0).length % 2 =
      ((Synchronizer.add combX decC2 nfZero syncC2 blocksC2).position >>> 0) % 2) ∧
    (((Synchronizer.add combX decC2 nfZero syncC2 blocksC2).position >>> 0) % 2 = 0 →
      (Synchronizer.add combX decC2 nfZero syncC2 blocksC2).tree_state.getD 0 none = none)) :=
  ⟨⟨by decide, by decide⟩,
    c4_frontier combX decC2 nfZero syncC2 blocksC2 (by decide) 0 (by decide)⟩

/-! ### Spend-detection lemmas -/

theorem lastAux_spec (ns : List ReceivedNote) (nf : Hash) : ∀ m : Nat,
    ((List.range m).foldl
      (fun acc j => if (ns.getD j default).nf = nf then some j else acc) none = none) ∨
    (∃ k, (List.range m).foldl
        (fun acc j => if (ns.getD j default).nf = nf then some j else acc) none = some k ∧
      k < m ∧ (ns.getD k default).nf = nf)
  | 0 => by left; rw [List.range_zero, List.foldl_nil]
  | m + 1 => by
    rw [List.range_succ, List.foldl_append, List.foldl_cons, List.foldl_nil]
    by_cases h : (ns.getD m default).nf = nf
    · right
      exact ⟨m, by rw [if_pos h], by omega, h⟩
    · rw [if_neg h]
      rcases lastAux_spec ns nf m with h0 | ⟨k, hk, hkm, hknf⟩
      · left; exact h0
      · right; exact ⟨k, hk, by omega, hknf⟩

theorem lastNfIdx_lt (ns : List ReceivedNote) (nf : Hash) (k : Nat)
    (h : lastNfIdx ns nf = some k) :
    k < ns.length ∧ (ns.getD k default).nf = nf := by
  unfold lastNfIdx at h
  rcases lastAux_spec ns nf ns.length with h0 | ⟨k2, hk2, hlt, hnf⟩
  · rw [h0] at h; cases h
  · rw [hk2] at h
    cases h
    exact ⟨hlt, hnf⟩

theorem lastNfIdx_eq (ns : List ReceivedNote) (nf : Hash) (i : Nat)
    (hi : i < ns.length) (hnf : (ns.getD i default).nf = nf)
    (huniq : ∀ j, j < ns.length → j ≠ i → (ns.getD j default).nf ≠ nf) :
    lastNfIdx ns nf = some i := by
  have aux : ∀ m, m ≤ ns.length →
      (List.range m).foldl
        (fun acc j => if (ns.getD j default).nf = nf then some j else acc) none =
        (if i < m then some i else none) := by
    intro m
    induction m with
    | zero =>
      intro _
      rw [List.range_zero, List.foldl_nil, if_neg (by omega)]
    | succ m ih =>
      intro hm
      rw [List.range_succ, List.foldl_append, List.foldl_cons, List.foldl_nil,
        ih (by omega)]
      by_cases him : m = i
      · subst him
        rw [if_pos hnf, if_pos (by omega)]
      · rw [if_neg (huniq m (by omega) him)]
        by_cases hlt : i < m
        · rw [if_pos hlt, if_pos (by omega)]
        · rw [if_neg hlt, if_neg (by omega)]
  have h2 := aux ns.length le_rfl
  unfold lastNfIdx
  rw [h2, if_pos hi]

theorem spendStep_spec (st : List ReceivedNote × List (TxValueUpdate Hash))
    (t : Nat × Hash × Hash) (j : Nat) :
    ∃ sp, (spendStep st t).1.getD j default = { st.1.getD j default with spent := sp } := by
  unfold spendStep
  rcases h : lastNfIdx st.1 t.2.2 with _ | k
  · exact ⟨(st.1.getD j default).spent, rfl⟩
  · by_cases hjk : j = k
    · subst hjk
      exact ⟨some t.1, getD_set_self _ _ _ _ (lastNfIdx_lt st.1 t.2.2 j h).1⟩
    · exact ⟨(st.1.getD j default).spent,
        by rw [getD_set_ne _ _ _ _ _ (Ne.symm hjk)]⟩

theorem spendFold_spec :
    ∀ (ts : List (Nat × Hash × Hash)) (st : List ReceivedNote × List (TxValueUpdate Hash))
      (j : Nat),
      ∃ sp, ((ts.foldl spendStep st).1).getD j default =
        { st.1.getD j default with spent := sp }
  | [], st, j => ⟨(st.1.getD j default).spent, rfl⟩
  | t :: ts, st, j => by
    rw [List.foldl_cons]
    obtain ⟨sp1, h1⟩ := spendFold_spec ts (spendStep st t) j
    obtain ⟨sp0, h0⟩ := spendStep_spec st t j
    exact ⟨sp1, by rw [h1, h0]⟩

theorem spendStep_mem (st : List ReceivedNote × List (TxValueUpdate Hash))
    (t : Nat × Hash × Hash) (x : TxValueUpdate Hash) (hx : x ∈ st.2) :
    x ∈ (spendStep st t).2 := by
  unfold spendStep
  rcases h : lastNfIdx st.1 t.2.2 with _ | k
  · exact hx
  · exact List.mem_append_left _ hx

theorem spendFold_mem :
    ∀ (ts : List (Nat × Hash × Hash)) (st : List ReceivedNote × List (TxValueUpdate Hash))
      (x : TxValueUpdate Hash), x ∈ st.2 → x ∈ (ts.foldl spendStep st).2
  | [], _, _, hx => hx
  | t :: ts, st, x, hx => by
    rw [List.foldl_cons]
    exact spendFold_mem ts _ x (spendStep_mem st t x hx)

theorem spendStep_run (L : List ReceivedNote) (i h0 : Nat) (txid0 nf0 : Hash)
    (hi : i < L.length) (hnf : (L.getD i default).nf = nf0)
    (ns : List ReceivedNote) (U : List (TxValueUpdate Hash)) (t : Nat × Hash × Hash)
    (ht : t.2.2 = nf0 → t = (h0, txid0, nf0))
    (hInvLen : ns.length = L.length)
    (hInvNf : ∀ j, j < L.length → (ns.getD j default).nf = (L.getD j default).nf)
    (hInvI : ns.getD i default = L.getD i default ∨
      ns.getD i default = { L.getD i default with spent := some h0 }) :
    ((spendStep (ns, U) t).1.length = L.length ∧
      (∀ j, j < L.length →
        ((spendStep (ns, U) t).1.getD j default).nf = (L.getD j default).nf) ∧
      ((spendStep (ns, U) t).1.getD i default = L.getD i default ∨
        (spendStep (ns, U) t).1.getD i default =
          { L.getD i default with spent := some h0 })) ∧
    (ns.getD i default = { L.getD i default with spent := some h0 } →
      (spendStep (ns, U) t).1.getD i default =
        { L.getD i default with spent := some h0 }) := by
  unfold spendStep
  rcases h : lastNfIdx ns t.2.2 with _ | k
  · exact ⟨⟨hInvLen, hInvNf, hInvI⟩, fun hm => hm⟩
  · obtain ⟨hk, hknf⟩ := lastNfIdx_lt ns t.2.2 k h
    have hsetlen : (ns.set k { ns.getD k default with spent := some t.1 }).length =
        L.length := by rw [List.length_set, hInvLen]
    have hsetnf : ∀ j, j < L.length →
        ((ns.set k { ns.getD k default with spent := some t.1 }).getD j default).nf =
          (L.getD j default).nf := by
      intro j hj
      by_cases hjk : j = k
      · subst hjk
        rw [getD_set_self _ _ _ _ hk]
        exact hInvNf j hj
      · rw [getD_set_ne _ _ _ _ _ (Ne.symm hjk)]
        exact hInvNf j hj
    by_cases hik : k = i
    · subst hik
      have hnfi : t.2.2 = nf0 := by
        rw [← hknf]
        rcases hInvI with hcase | hcase <;> rw [hcase] <;> exact hnf
      have ht0 := ht hnfi
      have hset : (ns.set k { ns.getD k default with spent := some t.1 }).getD k default =
          { L.getD k default with spent := some h0 } := by
        rw [getD_set_self _ _ _ _ hk]
        have hh0 : t.1 = h0 := by rw [ht0]
        rcases hInvI with hcase | hcase <;> rw [hcase, hh0]
      exact ⟨⟨hsetlen, hsetnf, Or.inr hset⟩, fun _ => hset⟩
    · have hset : (ns.set k { ns.getD k default with spent := some t.1 }).getD i default =
          ns.getD i default := getD_set_ne _ _ _ _ _ hik
      exact ⟨⟨hsetlen, hsetnf, by rw [hset]; exact hInvI⟩, fun hm => by rw [hset]; exact hm⟩

theorem spendFold_run (L : List ReceivedNote) (i h0 : Nat) (txid0 nf0 : Hash)
    (hi : i < L.length) (hnf : (L.getD i default).nf = nf0)
    (huniq : ∀ j, j < L.length → j ≠ i → (L.getD j default).nf ≠ nf0) :
    ∀ (ts : List (Nat × Hash × Hash)) (ns : List ReceivedNote)
      (U : List (TxValueUpdate Hash)),
      (∀ t ∈ ts, t.2.2 = nf0 → t = (h0, txid0, nf0)) →
      ns.length = L.length →
      (∀ j, j < L.length → (ns.getD j default).nf = (L.getD j default).nf) →
      (ns.getD i default = L.getD i default ∨
        ns.getD i default = { L.getD i default with spent := some h0 }) →
      ((ns.getD i default = { L.getD i default with spent := some h0 } →
        (ts.foldl spendStep (ns, U)).1.getD i default =
          { L.getD i default with spent := some h0 }) ∧
      ((h0, txid0, nf0) ∈ ts →
        (ts.foldl spendStep (ns, U)).1.getD i default =
            { L.getD i default with spent := some h0 } ∧
          noteSpendUpdate (L.getD i default) h0 txid0 ∈ (ts.foldl spendStep (ns, U)).2))
  | [], ns, U, _, _, _, _ => ⟨fun hm => hm, fun hm => absurd hm (List.not_mem_nil _)⟩
  | t :: ts, ns, U, honce, hInvLen, hInvNf, hInvI => by
    have hstep := spendStep_run L i h0 txid0 nf0 hi hnf ns U t
      (honce t (List.mem_cons_self t ts)) hInvLen hInvNf hInvI
    have hpair : spendStep (ns, U) t =
        ((spendStep (ns, U) t).1, (spendStep (ns, U) t).2) := rfl
    rw [List.foldl_cons, hpair]
    have hrest := spendFold_run L i h0 txid0 nf0 hi hnf huniq ts
      (spendStep (ns, U) t).1 (spendStep (ns, U) t).2
      (fun x hx => honce x (List.mem_cons_of_mem t hx))
      hstep.1.1 hstep.1.2.1 hstep.1.2.2
    refine ⟨fun hm => hrest.1 (hstep.2 hm), fun hmem => ?_⟩
    rcases List.mem_cons.1 hmem with heq | hmem2
    · have hlast : lastNfIdx ns t.2.2 = some i := by
        refine lastNfIdx_eq ns t.2.2 i (by omega) ?_ ?_
        · rw [hInvNf i hi, hnf, ← heq]
        · intro j hj hji
          rw [hInvNf j (by omega)]
          have ht22 : t.2.2 = nf0 := by rw [← heq]
          rw [ht22]
          exact huniq j (by omega) hji
      have hmark : (spendStep (ns, U) t).1.getD i default =
          { L.getD i default with spent := some h0 } := by
        show ((match lastNfIdx ns t.2.2 with
          | none => (ns, U)
          | some k =>
            (ns.set k { ns.getD k default with spent := some t.1 },
              U ++ [noteSpendUpdate (ns.getD k default) t.1 t.2.1])).1).getD i default = _
        rw [hlast]
        rw [getD_set_self _ _ _ _ (by omega)]
        have hh0 : t.1 = h0 := by rw [← heq]
        rcases hInvI with hcase | hcase <;> rw [hcase, hh0]
      have hupd : noteSpendUpdate (L.getD i default) h0 txid0 ∈ (spendStep (ns, U) t).2 := by
        show noteSpendUpdate (L.getD i default) h0 txid0 ∈
          ((match lastNfIdx ns t.2.2 with
            | none => (ns, U)
            | some k =>
              (ns.set k { ns.getD k default with spent := some t.1 },
                U ++ [noteSpendUpdate (ns.getD k default) t.1 t.2.1])).2)
        rw [hlast]
        refine List.mem_append_right _ ?_
        have hh0 : t.1 = h0 := by rw [← heq]
        have htx : t.2.1 = txid0 := by rw [← heq]
        rw [hh0, htx]
        rcases hInvI with hcase | hcase <;> rw [hcase] <;>
          exact List.mem_singleton.2 rfl
      exact ⟨hrest.1 hmark, spendFold_mem ts _ _ hupd⟩
    · exact hrest.2 hmem2

/-- C5: for every batch, a spend description whose nullifier matches the
nullifier of a note held when spend detection starts — the existing notes
together with the notes decrypted earlier in the same `add` call, i.e.
spend detection observes notes only after decrypt and position assignment —
marks that note `spent = Some(block.height)` and appends the negative
`TxValueUpdate` carrying the note's account, `-(note.value)`, the spending
transaction's txid and `id_spent = Some(nullifier)` (stated under nullifier
uniqueness and a single matching spend, as chain validity guarantees). -/
theorem c5_spend_detection (comb : CombineFn) (dec : DecryptFn) (nfOf : NullifierFn)
    (S : Synchronizer) (blocks : List CompactBlock) (i h0 : Nat) (txid0 nf0 : Hash)
    (hi : i < (notesPreSpend comb dec nfOf S blocks).length)
    (hnf : ((notesPreSpend comb dec nfOf S blocks).getD i default).nf = nf0)
    (huniq : ∀ j, j < (notesPreSpend comb dec nfOf S blocks).length → j ≠ i →
      ((notesPreSpend comb dec nfOf S blocks).getD j default).nf ≠ nf0)
    (hocc : (h0, txid0, nf0) ∈ spendsOf blocks)
    (honce : ∀ t ∈ spendsOf blocks, t.2.2 = nf0 → t = (h0, txid0, nf0)) :
    (Synchronizer.add comb dec nfOf S blocks).notes.getD i default =
      { (notesPreSpend comb dec nfOf S blocks).getD i default with spent := some h0 } ∧
    noteSpendUpdate ((notesPreSpend comb dec nfOf S blocks).getD i default) h0 txid0 ∈
      (Synchronizer.add comb dec nfOf S blocks).spends := by
  have hr := (spendFold_run (notesPreSpend comb dec nfOf S blocks) i h0 txid0 nf0 hi hnf huniq
    (spendsOf blocks) (notesPreSpend comb dec nfOf S blocks) S.spends honce rfl
    (fun j _ => rfl) (Or.inl rfl)).2 hocc
  have h1 : (Synchronizer.add comb dec nfOf S blocks).notes =
      ((spendsOf blocks).foldl spendStep
        (notesPreSpend comb dec nfOf S blocks, S.spends)).1 := by
    simp only [Synchronizer.add, detectSpends]
  have h2 : (Synchronizer.add comb dec nfOf S blocks).spends =
      ((spendsOf blocks).foldl spendStep
        (notesPreSpend comb dec nfOf S blocks, S.spends)).2 := by
    simp only [Synchronizer.add, detectSpends]
  rw [h1, h2]
  exact hr

theorem c5_spend_detection_witness :
    (((notesPreSpend combX decC5 nfC5 syncC5 blocksC5).getD 0 default).nf = 1003 ∧
      (101, 62, 1003) ∈ spendsOf blocksC5) ∧
    ((Synchronizer.add combX decC5 nfC5 syncC5 blocksC5).notes.getD 0 default =
      { (notesPreSpend combX decC5 nfC5 syncC5 blocksC5).getD 0 default with
          spent := some 101 } ∧
    noteSpendUpdate ((notesPreSpend combX decC5 nfC5 syncC5 blocksC5).getD 0 default)
        101 62 ∈ (Synchronizer.add combX decC5 nfC5 syncC5 blocksC5).spends) :=
  ⟨⟨by decide, by decide⟩,
    c5_spend_detection combX decC5 nfC5 syncC5 blocksC5 0 101 62 1003
      (by decide) (by decide) (by decide) (by decide) (by decide)⟩

/-! ### Note indexing through the phases of `add` -/

theorem notesPreSpend_old (comb : CombineFn) (dec : DecryptFn) (nfOf : NullifierFn)
    (S : Synchronizer) (blocks : List CompactBlock) (j : Nat) (hj : j < S.notes.length) :
    (notesPreSpend comb dec nfOf S blocks).getD j default =
      fillAll comb dec nfOf S blocks MERKLE_DEPTH (S.notes.getD j default) := by
  unfold notesPreSpend
  rw [iter_oldNotes, getD_append_left _ _ _ _ (by rw [List.length_map]; exact hj),
    getD_map _ _ _ _ default hj]

theorem notesPreSpend_new (comb : CombineFn) (dec : DecryptFn) (nfOf : NullifierFn)
    (S : Synchronizer) (blocks : List CompactBlock) (i : Nat)
    (hi : i < (decryptHits dec blocks).length) :
    (notesPreSpend comb dec nfOf S blocks).getD (S.notes.length + i) default =
      updAll comb dec nfOf S blocks MERKLE_DEPTH
        (mkNote nfOf S blocks ((decryptHits dec blocks).getD i dfltHit)) := by
  unfold notesPreSpend
  rw [iter_oldNotes, iter_newNotes]
  have e1 : S.notes.length + i =
      (S.notes.map (fillAll comb dec nfOf S blocks MERKLE_DEPTH)).length + i := by
    rw [List.length_map]
  rw [e1, getD_append_right,
    getD_map _ _ _ _ (mkNote nfOf S blocks dfltHit)
      (by rw [List.length_map]; exact hi),
    getD_map _ _ _ _ dfltHit hi]

theorem add_notes_witness (comb : CombineFn) (dec : DecryptFn) (nfOf : NullifierFn)
    (S : Synchronizer) (blocks : List CompactBlock) (J : Nat) :
    ((Synchronizer.add comb dec nfOf S blocks).notes.getD J default).witness =
      ((notesPreSpend comb dec nfOf S blocks).getD J default).witness ∧
    ((Synchronizer.add comb dec nfOf S blocks).notes.getD J default).position =
      ((notesPreSpend comb dec nfOf S blocks).getD J default).position := by
  have h1 : (Synchronizer.add comb dec nfOf S blocks).notes =
      ((spendsOf blocks).foldl spendStep
        (notesPreSpend comb dec nfOf S blocks, S.spends)).1 := by
    simp only [Synchronizer.add, detectSpends]
  rw [h1]
  generalize notesPreSpend comb dec nfOf S blocks = L
  obtain ⟨sp, hsp⟩ := spendFold_spec (spendsOf blocks) (L, S.spends) J
  rw [hsp]
  exact ⟨rfl, rfl⟩

/-- C1, counterexample: the claim's `nidx`-rule applied to an existing note
is wrong.  `syncC1` holds a note at position 0 whose depth-0 ommer is
already `Some 99`; its claimed index `nidx ^ 1` falls outside the batch
level vector, so the rule prescribes `None` (and `witness.value = cmxs[nidx]`
would be the new commitment 55), yet `add` leaves the stored ommer `Some 99`
and the witness value 11 untouched. -/
theorem c1_existing_note_counterexample :
    ((Synchronizer.add combX decNone nfZero syncC1 blocksC1).notes.getD 0
        default).witness.ommers.getD 0 none = some 99 ∧
    claimedOmmer (levelAt combX decNone nfZero syncC1 blocksC1 0)
      (oldNoteC1.position >>> 0 - levelStart syncC1.position 0) = none ∧
    ((Synchronizer.add combX decNone nfZero syncC1 blocksC1).notes.getD 0
        default).witness.value = 11 := by
  decide

/-- C1 (amended): the `nidx` ommer rule and the depth-0 `witness.value`
assignment apply to the newly received notes only: a new note's ommer at
depth `d` is `cmxs[nidx ^ 1]` when that index lies within the level vector
and `None` otherwise, and at depth 0 its `witness.value` is set from
`cmxs[nidx]`.  An existing note instead keeps every already-set ommer, and
an unset (None) ommer at depth `d` is filled with `cmxs[1]` of the
bridge-substituted level when that level has at least two entries. -/
theorem c1_ommer_rules (comb : CombineFn) (dec : DecryptFn) (nfOf : NullifierFn)
    (S : Synchronizer) (blocks : List CompactBlock)
    (hwf : ∀ n ∈ S.notes, n.witness.ommers.length = MERKLE_DEPTH)
    (d : Nat) (hd : d < MERKLE_DEPTH) :
    (∀ i, i < (decryptHits dec blocks).length →
      ((Synchronizer.add comb dec nfOf S blocks).notes.getD (S.notes.length + i)
          default).witness.ommers.getD d none =
        claimedOmmer (levelAt comb dec nfOf S blocks d)
          ((mkNote nfOf S blocks ((decryptHits dec blocks).getD i dfltHit)).position >>> d -
            levelStart S.position d) ∧
      ((Synchronizer.add comb dec nfOf S blocks).notes.getD (S.notes.length + i)
          default).witness.value =
        ((levelAt comb dec nfOf S blocks 0).getD
          ((mkNote nfOf S blocks ((decryptHits dec blocks).getD i dfltHit)).position >>> 0 -
            levelStart S.position 0) none).getD 0) ∧
    (∀ j, j < S.notes.length →
      ((Synchronizer.add comb dec nfOf S blocks).notes.getD j
          default).witness.ommers.getD d none =
        (if 2 ≤ (bridgedLevelAt comb dec nfOf S blocks d).length ∧
            (S.notes.getD j default).witness.ommers.getD d none = none then
          (bridgedLevelAt comb dec nfOf S blocks d).getD 1 none
        else (S.notes.getD j default).witness.ommers.getD d none)) := by
  constructor
  · intro i hi
    have hw := (add_notes_witness comb dec nfOf S blocks (S.notes.length + i)).1
    rw [hw, notesPreSpend_new comb dec nfOf S blocks i hi]
    have hlen : d <
        (mkNote nfOf S blocks
          ((decryptHits dec blocks).getD i dfltHit)).witness.ommers.length := by
      show d < (List.replicate MERKLE_DEPTH (none : Option Hash)).length
      rw [List.length_replicate]
      exact hd
    exact ⟨updAll_ommers comb dec nfOf S blocks MERKLE_DEPTH d _ hd hlen,
      updAll_value comb dec nfOf S blocks MERKLE_DEPTH _ (by norm_num [MERKLE_DEPTH])⟩
  · intro j hj
    have hw := (add_notes_witness comb dec nfOf S blocks j).1
    rw [hw, notesPreSpend_old comb dec nfOf S blocks j hj]
    have hlen : d < (S.notes.getD j default).witness.ommers.length := by
      rw [hwf _ (getD_mem _ _ _ hj)]
      exact hd
    exact fillAll_ommers comb dec nfOf S blocks MERKLE_DEPTH d _ hd hlen

theorem c1_ommer_rules_witness :
    ((∀ n ∈ syncC2.notes, n.witness.ommers.length = MERKLE_DEPTH) ∧ 0 < MERKLE_DEPTH) ∧
    ((∀ i, i < (decryptHits decC2 blocksC2).length →
      ((Synchronizer.add combX decC2 nfZero syncC2 blocksC2).notes.getD
          (syncC2.notes.length + i) default).witness.ommers.getD 0 none =
        claimedOmmer (levelAt combX decC2 nfZero syncC2 blocksC2 0)
          ((mkNote nfZero syncC2 blocksC2
              ((decryptHits decC2 blocksC2).getD i dfltHit)).position >>> 0 -
            levelStart syncC2.position 0) ∧
      ((Synchronizer.add combX decC2 nfZero syncC2 blocksC2).notes.getD
          (syncC2.notes.length + i) default).witness.value =
        ((levelAt combX decC2 nfZero syncC2 blocksC2 0).getD
          ((mkNote nfZero syncC2 blocksC2
              ((decryptHits decC2 blocksC2).getD i dfltHit)).position >>> 0 -
            levelStart syncC2.position 0) none).getD 0) ∧
    (∀ j, j < syncC2.notes.length →
      ((Synchronizer.add combX decC2 nfZero syncC2 blocksC2).notes.getD j
          default).witness.ommers.getD 0 none =
        (if 2 ≤ (bridgedLevelAt combX decC2 nfZero syncC2 blocksC2 0).length ∧
            (syncC2.notes.getD j default).witness.ommers.getD 0 none = none then
          (bridgedLevelAt combX decC2 nfZero syncC2 blocksC2 0).getD 1 none
        else (syncC2.notes.getD j default).witness.ommers.getD 0 none))) :=
  ⟨⟨by decide, by decide⟩,
    c1_ommer_rules combX decC2 nfZero syncC2 blocksC2 (by decide) 0 (by decide)⟩

/-- C7: adding an empty batch of blocks returns without error and leaves
`start`, `position`, `tree_state` and every note (witness included)
unchanged, for every synchronizer state satisfying the Edge representation
invariant (frontier slot `d` is set iff `position >> d` is odd; on states
violating it the source either panics on the `tree_state[depth].unwrap()`
or rewrites the frontier). -/
theorem c7_empty_batch (comb : CombineFn) (dec : DecryptFn) (nfOf : NullifierFn)
    (S : Synchronizer) (hlen : S.tree_state.length = MERKLE_DEPTH)
    (hinv : ∀ d, d < MERKLE_DEPTH →
      ((S.position >>> d) % 2 = 1 ↔ (S.tree_state.getD d none).isSome)) :
    Synchronizer.add comb dec nfOf S [] = S := by
  have hiter : ∀ k, k ≤ MERKLE_DEPTH → loopIter comb dec nfOf S [] k =
      { cmxs := [], newNotes := [], oldNotes := S.notes, bridges := [],
        tree := S.tree_state } := by
    intro k
    induction k with
    | zero =>
      intro _
      rw [loopIter_zero]
      rfl
    | succ k ih =>
      intro hk
      rw [loopIter_succ, ih (by omega)]
      by_cases hpar : (S.position >>> k) % 2 = 1
      · obtain ⟨x, hx⟩ := Option.isSome_iff_exists.1 ((hinv k (by omega)).1 hpar)
        simp only [depthStep, levelPrefix, hx, hpar, if_true, reduceIte, ite_self,
          List.append_nil, leafLevel, List.flatMap_nil, List.map_nil,
          bridgesAtDepth, List.foldl_nil, parallelCombineOpt,
          List.length_cons, List.length_nil, Option.getD_some]
        have hset : S.tree_state.set k (some x) = S.tree_state := by
          rw [← hx]
          exact set_getD_eq _ _ _
        norm_num [List.getD_cons_zero, hset]
      · have hnone : S.tree_state.getD k none = none := by
          rcases h : S.tree_state.getD k none with _ | y
          · rfl
          · exact absurd ((hinv k (by omega)).2 (by rw [h]; rfl)) hpar
        simp only [depthStep, levelPrefix, hpar, if_false, reduceIte, ite_self,
          List.append_nil, leafLevel, List.flatMap_nil, List.map_nil,
          bridgesAtDepth, List.foldl_nil, parallelCombineOpt,
          List.length_nil, Nat.zero_div, List.range_zero]
        have hset : S.tree_state.set k none = S.tree_state := by
          rw [← hnone]
          exact set_getD_eq _ _ _
        norm_num [hset]
  have h32 := hiter MERKLE_DEPTH le_rfl
  unfold Synchronizer.add notesPreSpend detectSpends
  rw [h32]
  simp only [spendsOf, List.flatMap_nil, List.foldl_nil, countCmxs, List.map_nil,
    List.sum_nil, List.length_nil, List.append_nil, Nat.add_zero]

theorem hits_height (dec : DecryptFn) (blocks : List CompactBlock)
    (t : Nat × Nat × Nat × RawNote) (ht : t ∈ decryptHits dec blocks) :
    ∃ bi, bi < blocks.length ∧ t.1 = (blocks.getD bi dfltBlock).height := by
  unfold decryptHits at ht
  rw [List.mem_flatMap] at ht
  obtain ⟨cb, hcb, ht2⟩ := ht
  rw [List.mem_flatMap] at ht2
  obtain ⟨p, hp, ht3⟩ := ht2
  rw [List.mem_filterMap] at ht3
  obtain ⟨q, hq, ht4⟩ := ht3
  rw [Option.map_eq_some'] at ht4
  obtain ⟨raw, hraw, ht5⟩ := ht4
  obtain ⟨bi, hbi, hcbeq⟩ := List.mem_iff_getElem.1 hcb
  refine ⟨bi, hbi, ?_⟩
  rw [← ht5]
  show cb.height = _
  simp [List.getD_eq_getElem?_getD, List.getElem?_eq_getElem hbi, hcbeq]

theorem lbh_take : ∀ (blocks : List CompactBlock) (S0 bi : Nat),
    (∀ k, k < blocks.length → (blocks.getD k dfltBlock).height = S0 + 1 + k) →
    bi < blocks.length →
    leavesBeforeHeight blocks (S0 + 1 + bi) = ((blocks.take bi).map blockLeafCount).sum
  | [], _, _, _, hbi => absurd hbi (by simp)
  | cb :: rest, S0, bi, hh, hbi => by
    have h0 : cb.height = S0 + 1 := by
      have := hh 0 (by simp)
      simpa using this
    rcases bi with _ | b
    · unfold leavesBeforeHeight
      rw [if_pos (by omega)]
      simp
    · unfold leavesBeforeHeight
      rw [if_neg (by omega)]
      have hrest := lbh_take rest (S0 + 1) b
        (fun k hk => by
          have := hh (k + 1) (by simpa using Nat.succ_lt_succ hk)
          simp only [List.getD_cons_succ] at this
          omega)
        (by simpa using hbi)
      rw [show S0 + 1 + (b + 1) = S0 + 1 + 1 + b by omega, hrest]
      simp

theorem flatMapSum : ∀ (l : List CompactBlock),
    ((l.flatMap (fun cb => cb.vtx)).map txLeafCount).sum = (l.map blockLeafCount).sum
  | [] => rfl
  | cb :: rest => by
    rw [List.flatMap_cons, List.map_append, List.sum_append, flatMapSum rest]
    simp [blockLeafCount]

/-- C2: under the batch contract (block heights consecutive from
`start + 1`), every decrypted note is assigned position equal to the
synchronizer position plus the output-plus-bridge leaf counts of every
transaction preceding it in (block, transaction-index) order plus its own
output index. -/
theorem c2_positions (comb : CombineFn) (dec : DecryptFn) (nfOf : NullifierFn)
    (S : Synchronizer) (blocks : List CompactBlock)
    (hh : ∀ k, k < blocks.length → (blocks.getD k dfltBlock).height = S.start + 1 + k)
    (i : Nat) (hi : i < (decryptHits dec blocks).length) :
    ((Synchronizer.add comb dec nfOf S blocks).notes.getD (S.notes.length + i)
        default).position =
      S.position +
        claimedOffset blocks
          (((decryptHits dec blocks).getD i dfltHit).1 - S.start - 1)
          (((decryptHits dec blocks).getD i dfltHit).2.1) +
        ((decryptHits dec blocks).getD i dfltHit).2.2.1 := by
  have hpos := (add_notes_witness comb dec nfOf S blocks (S.notes.length + i)).2
  rw [hpos, notesPreSpend_new comb dec nfOf S blocks i hi, updAll_position]
  obtain ⟨bi, hbi, hbih⟩ := hits_height dec blocks
    ((decryptHits dec blocks).getD i dfltHit) (getD_mem _ _ _ hi)
  have hbieq : ((decryptHits dec blocks).getD i dfltHit).1 - S.start - 1 = bi := by
    rw [hbih, hh bi hbi]
    omega
  show S.position + leavesBeforeHeight blocks ((decryptHits dec blocks).getD i dfltHit).1 +
      leavesBeforeTx
        (blocks.getD (((decryptHits dec blocks).getD i dfltHit).1 - S.start - 1)
          dfltBlock).vtx ((decryptHits dec blocks).getD i dfltHit).2.1 +
      ((decryptHits dec blocks).getD i dfltHit).2.2.1 = _
  unfold claimedOffset
  rw [hbieq, flatMapSum, hbih, hh bi hbi, lbh_take blocks S.start bi hh hbi]
  omega

theorem c2_positions_witness :
    ((∀ k, k < blocksC2.length →
        (blocksC2.getD k dfltBlock).height = syncC2.start + 1 + k) ∧
      1 < (decryptHits decC2 blocksC2).length) ∧
    (((Synchronizer.add combX decC2 nfZero syncC2 blocksC2).notes.getD
        (syncC2.notes.length + 1) default).position =
      syncC2.position +
        claimedOffset blocksC2
          (((decryptHits decC2 blocksC2).getD 1 dfltHit).1 - syncC2.start - 1)
          (((decryptHits decC2 blocksC2).getD 1 dfltHit).2.1) +
        ((decryptHits decC2 blocksC2).getD 1 dfltHit).2.2.1) ∧
    ((Synchronizer.add combX decC2 nfZero syncC2 blocksC2).notes.getD 1
        default).position = 4 :=
  ⟨⟨by decide, by decide⟩,
    c2_positions combX decC2 nfZero syncC2 blocksC2 (by decide) 1 (by decide),
    by decide⟩

theorem getD_replicate {α : Type} (a : α) :
    ∀ (n i : Nat), (List.replicate n a).getD i a = a
  | 0, _ => rfl
  | _ + 1, 0 => rfl
  | n + 1, i + 1 => getD_replicate a n i

/-- C6, evaluation at the failing input: a bridge whose start boundary sits
65536 leaves into the batch level.  The mask `& 0xFFFE` is only 16 bits
wide, so the computed slot is 0 even though the pair-rounded relative index
is 65536 (already even and nonzero): the head sibling is written into slot
0 of the level vector while slot 65536 stays empty, contradicting the
`// round to pair` comment and the claim. -/
theorem c6_bridge_slot_truncation :
    bridgeSlot bridgeC6.s 0 = 0 ∧
    bridgeC6.s.toNat % 2 = 0 ∧ bridgeC6.s.toNat = 65536 ∧
    (bridgesAtDepth 0 0 levelC6 [bridgeC6]).1.getD 0 none = some 81 ∧
    (bridgesAtDepth 0 0 levelC6 [bridgeC6]).1.getD 65536 none = none := by
  have h1 : (bridgesAtDepth 0 0 levelC6 [bridgeC6]).1 = levelC6.set 0 (some 81) := rfl
  refine ⟨by decide, by decide, by decide, ?_, ?_⟩
  · rw [h1]
    refine getD_set_self _ _ _ _ ?_
    show 0 < (List.replicate 65538 (none : Option Hash)).length
    rw [List.length_replicate]
    omega
  · rw [h1, getD_set_ne _ _ _ _ _ (by omega)]
    exact getD_replicate none 65538 65536

theorem c7_empty_batch_witness :
    (syncC7.tree_state.length = MERKLE_DEPTH ∧
      (∀ d, d < MERKLE_DEPTH →
        ((syncC7.position >>> d) % 2 = 1 ↔ (syncC7.tree_state.getD d none).isSome))) ∧
    Synchronizer.add combX decNone nfZero syncC7 [] = syncC7 :=
  ⟨⟨by decide, by decide⟩,
    c7_empty_batch combX decNone nfZero syncC7 (by decide) (by decide)⟩

end ZcashWarp
